import Mathlib

/-!
The article extraction pipeline and the processing endpoint of pocket-alternative.

A shallow embedding of `main.go`: the text pipeline of `NewArticle` (white-space
collapse, trimming, length cap), the document queries it performs (removal of
`style`, `noscript` and `script` elements, the selectors `article>h1` and `article`),
the fetch in front of it and the handler `ApiHandlerProcessLink` around it.

A Go `string` is a sequence of bytes; `len` and slicing count bytes.  Library calls
(`regexp`, `strings`, `goquery`, `net/http`, the record store) are embedded by their
documented behaviour.
-/

namespace PocketAlternative

/-! ## Strings -/

/-- A Go string: an immutable sequence of bytes (each value below 256). -/
abbrev GoString := List Nat

/-- The bytes of an ASCII literal. -/
def ascii (s : String) : GoString := s.data.map Char.toNat

/-- The UTF-8 encoding of one code point (Go `utf8.EncodeRune` on a valid rune). -/
def encodeRune (r : Nat) : GoString :=
  if r < 0x80 then [r]
  else if r < 0x800 then [0xC0 + r / 64, 0x80 + r % 64]
  else if r < 0x10000 then [0xE0 + r / 4096, 0x80 + r / 64 % 64, 0x80 + r % 64]
  else [0xF0 + r / 262144, 0x80 + r / 4096 % 64, 0x80 + r / 64 % 64, 0x80 + r % 64]

/-- The UTF-8 encoding of a sequence of code points: the Go string holding that text. -/
def utf8 (runes : List Nat) : GoString := (runes.map encodeRune).flatten

/-- A UTF-8 continuation byte, `10xxxxxx`. -/
def isCont (b : Nat) : Bool := decide (0x80 ≤ b) && decide (b ≤ 0xBF)

/-- The number of characters (code points) of a well-formed UTF-8 string: every
character contributes exactly one byte that is not a continuation byte. -/
def runeCount (s : GoString) : Nat := (s.filter (fun b => !isCont b)).length

/-- A well-formed two-byte sequence: `C2..DF` and a continuation byte. -/
def isRune2 (b0 b1 : Nat) : Bool :=
  decide (0xC2 ≤ b0) && decide (b0 ≤ 0xDF) && isCont b1

/-- A well-formed three-byte sequence: `E0 A0..BF`, `E1..EC 80..BF`, `ED 80..9F` or
`EE..EF 80..BF`, and a continuation byte. -/
def isRune3 (b0 b1 b2 : Nat) : Bool :=
  ((b0 == 0xE0 && decide (0xA0 ≤ b1) && decide (b1 ≤ 0xBF)) ||
   (decide (0xE1 ≤ b0) && decide (b0 ≤ 0xEC) && isCont b1) ||
   (b0 == 0xED && decide (0x80 ≤ b1) && decide (b1 ≤ 0x9F)) ||
   (decide (0xEE ≤ b0) && decide (b0 ≤ 0xEF) && isCont b1)) && isCont b2

/-- A well-formed four-byte sequence: `F0 90..BF`, `F1..F3 80..BF` or `F4 80..8F`,
and two continuation bytes. -/
def isRune4 (b0 b1 b2 b3 : Nat) : Bool :=
  ((b0 == 0xF0 && decide (0x90 ≤ b1) && decide (b1 ≤ 0xBF)) ||
   (decide (0xF1 ≤ b0) && decide (b0 ≤ 0xF3) && isCont b1) ||
   (b0 == 0xF4 && decide (0x80 ≤ b1) && decide (b1 ≤ 0x8F))) && isCont b2 && isCont b3

/-- The byte length of the well-formed UTF-8 sequence at the head of the string, `0`
when the string is empty or does not begin with one (the table of `unicode/utf8`). -/
def runeLen : GoString → Nat
  | [] => 0
  | b0 :: t0 =>
    if b0 < 0x80 then 1 else
    match t0 with
    | [] => 0
    | b1 :: t1 =>
      if isRune2 b0 b1 then 2 else
      match t1 with
      | [] => 0
      | b2 :: t2 =>
        if isRune3 b0 b1 b2 then 3 else
        match t2 with
        | [] => 0
        | b3 :: _ => if isRune4 b0 b1 b2 b3 then 4 else 0

/-- Well-formed UTF-8 (Go `utf8.ValidString`): the string splits into well-formed
sequences.  The first argument bounds the number of sequences still to be read. -/
def validUTF8Aux : Nat → GoString → Bool
  | _, [] => true
  | 0, _ :: _ => false
  | n + 1, b :: t => runeLen (b :: t) != 0 && validUTF8Aux n ((b :: t).drop (runeLen (b :: t)))

/-- Well-formed UTF-8 (Go `utf8.ValidString`). -/
def validUTF8 (s : GoString) : Bool := validUTF8Aux s.length s

/-! ## The text pipeline of `NewArticle` (lines 177-183) -/

/-- The class `\s` of Go's `regexp` (RE2 syntax): `[\t\n\f\r ]`. -/
def isReSpace (b : Nat) : Bool :=
  b == 0x09 || b == 0x0A || b == 0x0C || b == 0x0D || b == 0x20

/-- The scan behind `re.ReplaceAllString(rawContent, " ")` with `re` the pattern `\s+`:
matches are leftmost, greedy and do not overlap, so every byte of class `\s` that
opens a match is replaced by one space, every further byte of the same match is
dropped, and every other byte is copied.  `inMatch` tells whether the previous byte
belonged to a match. -/
def replaceAllSpace (inMatch : Bool) : GoString → GoString
  | [] => []
  | b :: t =>
    if isReSpace b then
      if inMatch then replaceAllSpace true t else 0x20 :: replaceAllSpace true t
    else b :: replaceAllSpace false t

/-- The value of `re.ReplaceAllString(rawContent, " ")` for the pattern `\s+`. -/
def ReplaceAllString (rawContent : GoString) : GoString := replaceAllSpace false rawContent

/-- White space of one byte for `strings.TrimSpace`: `\t \n \v \f \r` and space. -/
def isAsciiSpace (b : Nat) : Bool :=
  b == 0x09 || b == 0x0A || b == 0x0B || b == 0x0C || b == 0x0D || b == 0x20

/-- The two-byte encodings of white space (`unicode.IsSpace`): U+0085 and U+00A0. -/
def isSpace2 (b0 b1 : Nat) : Bool :=
  b0 == 0xC2 && (b1 == 0x85 || b1 == 0xA0)

/-- The three-byte encodings of white space (`unicode.IsSpace`): U+1680,
U+2000..U+200A, U+2028, U+2029, U+202F, U+205F and U+3000. -/
def isSpace3 (b0 b1 b2 : Nat) : Bool :=
  (b0 == 0xE1 && b1 == 0x9A && b2 == 0x80) ||
  (b0 == 0xE2 && b1 == 0x80 &&
    ((decide (0x80 ≤ b2) && decide (b2 ≤ 0x8A)) || b2 == 0xA8 || b2 == 0xA9 || b2 == 0xAF)) ||
  (b0 == 0xE2 && b1 == 0x81 && b2 == 0x9F) ||
  (b0 == 0xE3 && b1 == 0x80 && b2 == 0x80)

/-- The code points that are white space for Go's `unicode.IsSpace`: in Latin-1
`\t \n \v \f \r`, space, U+0085 and U+00A0, beyond it the table `White_Space`. -/
def unicodeIsSpace (r : Nat) : Bool :=
  if r ≤ 0xFF then
    r == 0x09 || r == 0x0A || r == 0x0B || r == 0x0C || r == 0x0D || r == 0x20 ||
      r == 0x85 || r == 0xA0
  else
    r == 0x1680 || (decide (0x2000 ≤ r) && decide (r ≤ 0x200A)) || r == 0x2028 ||
      r == 0x2029 || r == 0x202F || r == 0x205F || r == 0x3000

/-- The byte length of the white-space character at the head of the string, `0` when
there is none.  `p2` and `p3` recognise the two- and three-byte encodings in the
order in which the bytes are met. -/
def spaceLen (p2 : Nat → Nat → Bool) (p3 : Nat → Nat → Nat → Bool) : GoString → Nat
  | [] => 0
  | b0 :: t0 =>
    if isAsciiSpace b0 then 1 else
    match t0 with
    | [] => 0
    | b1 :: t1 =>
      if p2 b0 b1 then 2 else
      match t1 with
      | [] => 0
      | b2 :: _ => if p3 b0 b1 b2 then 3 else 0

/-- Removes white-space characters from the head of the string for as long as there
is one. -/
def trimRunes (p2 : Nat → Nat → Bool) (p3 : Nat → Nat → Nat → Bool) : GoString → GoString
  | [] => []
  | b0 :: t0 =>
    if isAsciiSpace b0 then trimRunes p2 p3 t0 else
    match t0 with
    | [] => [b0]
    | b1 :: t1 =>
      if p2 b0 b1 then trimRunes p2 p3 t1 else
      match t1 with
      | [] => [b0, b1]
      | b2 :: t2 => if p3 b0 b1 b2 then trimRunes p2 p3 t2 else b0 :: b1 :: b2 :: t2

/-- The two-byte encodings met from the end of the string (last byte first). -/
def isSpace2Rev (b1 b0 : Nat) : Bool := isSpace2 b0 b1

/-- The three-byte encodings met from the end of the string (last byte first). -/
def isSpace3Rev (b2 b1 b0 : Nat) : Bool := isSpace3 b0 b1 b2

/-- The string without its leading white space (`strings.TrimLeftFunc` with
`unicode.IsSpace`). -/
def TrimLeftSpace (s : GoString) : GoString := trimRunes isSpace2 isSpace3 s

/-- The string without its trailing white space (`strings.TrimRightFunc` with
`unicode.IsSpace`): the characters are read from the last byte backwards. -/
def TrimRightSpace (s : GoString) : GoString :=
  (trimRunes isSpace2Rev isSpace3Rev s.reverse).reverse

/-- The value of `strings.TrimSpace(s)`: leading and trailing white space, as Unicode
defines it, removed. -/
def TrimSpace (s : GoString) : GoString := TrimRightSpace (TrimLeftSpace s)

/-- Whether the string begins with a white-space character. -/
def startsWithSpace (s : GoString) : Bool := spaceLen isSpace2 isSpace3 s != 0

/-- Whether the string ends with a white-space character. -/
def endsWithSpace (s : GoString) : Bool := spaceLen isSpace2Rev isSpace3Rev s.reverse != 0

/-- The constant `maxLen` of `NewArticle`. -/
def maxLen : Nat := 5000

/-- Lines 180-183: `if len(trimmedText) > maxLen { trimmedText = trimmedText[:maxLen] }`. -/
def truncate (trimmedText : GoString) : GoString :=
  if trimmedText.length > maxLen then trimmedText.take maxLen else trimmedText

/-- Lines 177-179: the text after `ReplaceAllString` and `TrimSpace`. -/
def normalizeText (rawContent : GoString) : GoString :=
  let cleanText := ReplaceAllString rawContent
  TrimSpace cleanText

/-- Lines 177-183: the content computed from the raw text of the article element. -/
def cleanContent (rawContent : GoString) : GoString := truncate (normalizeText rawContent)

/-- The replacement of one maximal run: a run of bytes of class `\s` becomes one
space, any other run stays. -/
def replaceRun (run : GoString) : GoString := if run.all isReSpace then [0x20] else run

/-- Written from the specification: the text cut into its maximal runs of white-space
bytes and of other bytes, every white-space run replaced by a single space. -/
def specCollapse (raw : GoString) : GoString :=
  ((raw.splitBy (fun a b => isReSpace a == isReSpace b)).map replaceRun).flatten

/-- Written from the specification: collapse every maximal run of white space into
one space, then trim leading and trailing white space. -/
def specNormalize (raw : GoString) : GoString := TrimSpace (specCollapse raw)

/-- Text in which every byte of class `\s` is a space and no two spaces are adjacent. -/
def Collapsed (s : GoString) : Prop :=
  (∀ b ∈ s, isReSpace b = true → b = 0x20) ∧ s.Chain' (fun a b => ¬(a = 0x20 ∧ b = 0x20))

/-! ## The parsed document and the `goquery` calls of `NewArticle` (lines 171-176) -/

/-- A node of the tree that `html.Parse` builds, below the document node: a text
node with its data, a comment, a doctype, or an element with its lower-case tag name
and its children in document order. -/
inductive Node where
  | text (data : GoString)
  | comment (data : GoString)
  | doctype (name : GoString)
  | element (tag : String) (children : List Node)

/-- The document held by a `goquery.Document`: the children of the document node. -/
structure Document where
  children : List Node

/-- The selectors used by `NewArticle`: a group of type selectors (`article`, or
`style, noscript, script`) and the child combinator between two type selectors
(`article>h1`). -/
inductive Selector where
  | tags (names : List String)
  | child (parent : String) (tag : String)

/-- Whether an element with the given tag, whose parent is an element with tag
`parent` (`none` when the parent is the document node), matches the selector. -/
def Selector.matchesTag (sel : Selector) (parent : Option String) (tag : String) : Bool :=
  match sel with
  | .tags names => names.contains tag
  | .child p t => tag == t && parent == some p

mutual
/-- The elements of the subtree of a node that match the selector, the node itself
included, in document order (`cascadia`'s `MatchAll`). -/
def matchAll (sel : Selector) (parent : Option String) : Node → List Node
  | .text _ => []
  | .comment _ => []
  | .doctype _ => []
  | .element tag children =>
    (if sel.matchesTag parent tag then [Node.element tag children] else []) ++
      matchAllList sel (some tag) children
/-- The matches within a list of sibling nodes whose parent has tag `parent`. -/
def matchAllList (sel : Selector) (parent : Option String) : List Node → List Node
  | [] => []
  | n :: ns => matchAll sel parent n ++ matchAllList sel parent ns
end

/-- The selection `doc.Find(selector)`: the matching descendants of the document node
in document order. -/
def Find (doc : Document) (sel : Selector) : List Node :=
  matchAllList sel none doc.children

/-- The selection `s.First()`: the first node of the selection, or the empty
selection. -/
def First (s : List Node) : List Node := s.take 1

mutual
/-- The text of a node: the data of the text nodes of its subtree, concatenated in
document order. -/
def nodeText : Node → GoString
  | .text data => data
  | .comment _ => []
  | .doctype _ => []
  | .element _ children => nodesText children
/-- The text of a list of nodes, concatenated (`s.Text()` on a selection). -/
def nodesText : List Node → GoString
  | [] => []
  | n :: ns => nodeText n ++ nodesText ns
end

/-- The selector of line 171. -/
def removedTags : Selector := .tags ["style", "noscript", "script"]

/-- Whether the node is an element matched by `style, noscript, script`. -/
def isRemoved : Node → Bool
  | .element tag _ => removedTags.matchesTag none tag
  | _ => false

mutual
/-- The node after every matching element below it has been detached. -/
def removeIn : Node → Node
  | .text data => .text data
  | .comment data => .comment data
  | .doctype name => .doctype name
  | .element tag children => .element tag (removeList children)
/-- The list of siblings after every matching element among them and below them has
been detached. -/
def removeList : List Node → List Node
  | [] => []
  | n :: ns => if isRemoved n then removeList ns else removeIn n :: removeList ns
end

/-- Lines 171-173: `doc.Find("style, noscript, script").Each(... s.Remove() ...)`, the
document after every `style`, `noscript` and `script` element has been detached from
its parent, with its whole subtree. -/
def removeMatched (doc : Document) : Document := ⟨removeList doc.children⟩

/-- The result type of `NewArticle`. -/
structure Article where
  title : GoString
  content : GoString
  deriving DecidableEq

/-- Lines 171-188 of `NewArticle`: the article computed from the parsed document. -/
def extractArticle (doc : Document) : Article :=
  let doc := removeMatched doc
  let title := nodesText (First (Find doc (.child "article" "h1")))
  let rawContent := nodesText (First (Find doc (.tags ["article"])))
  let cleanText := ReplaceAllString rawContent
  let trimmedText := TrimSpace cleanText
  let trimmedText := truncate trimmedText
  { title := title, content := trimmedText }

/-! ### Descriptions of the document in the words of the specification -/

mutual
/-- Every element of the subtree of a node, the node itself included, in document
order, each with the tag of its parent element (`none` below the document node). -/
def elementsOf (parent : Option String) : Node → List (Option String × Node)
  | .text _ => []
  | .comment _ => []
  | .doctype _ => []
  | .element tag children =>
    (parent, Node.element tag children) :: elementsOfList (some tag) children
/-- Every element below a list of siblings, in document order. -/
def elementsOfList (parent : Option String) : List Node → List (Option String × Node)
  | [] => []
  | n :: ns => elementsOf parent n ++ elementsOfList parent ns
end

/-- Every element of the document in document order, with the tag of its parent. -/
def Document.elements (doc : Document) : List (Option String × Node) :=
  elementsOfList none doc.children

/-- The tag of an element, `none` for any other node. -/
def Node.tag? : Node → Option String
  | .element tag _ => some tag
  | _ => none

/-- The children of an element, none for any other node. -/
def Node.children : Node → List Node
  | .element _ children => children
  | _ => []

/-- Whether the document holds an element with the given tag. -/
def Document.hasTag (doc : Document) (tag : String) : Bool :=
  doc.elements.any (fun e => e.2.tag? == some tag)

/-- Written from the claim on the title: the text of the first `h1` element, at any
depth, below the first `article` element of the document (after the removal of line
171), empty when there is none. -/
def specTitleDescendant (doc : Document) : GoString :=
  match Find (removeMatched doc) (.tags ["article"]) with
  | [] => []
  | article :: _ => nodesText (First (matchAllList (.tags ["h1"]) (some "article") article.children))

mutual
/-- The matches of a selector in the subtree of a node, read without entering any
`style`, `noscript` or `script` element. -/
def visibleMatches (sel : Selector) (parent : Option String) : Node → List Node
  | .text _ => []
  | .comment _ => []
  | .doctype _ => []
  | .element tag children =>
    if removedTags.matchesTag none tag then [] else
      (if sel.matchesTag parent tag then [Node.element tag children] else []) ++
        visibleMatchesList sel (some tag) children
/-- The matches within a list of siblings, read without entering any `style`,
`noscript` or `script` element. -/
def visibleMatchesList (sel : Selector) (parent : Option String) : List Node → List Node
  | [] => []
  | n :: ns => visibleMatches sel parent n ++ visibleMatchesList sel parent ns
end

mutual
/-- The text of a node read without entering any `style`, `noscript` or `script`
element. -/
def visibleText : Node → GoString
  | .text data => data
  | .comment _ => []
  | .doctype _ => []
  | .element tag children =>
    if removedTags.matchesTag none tag then [] else visibleTextList children
/-- The text of a list of nodes read without entering any `style`, `noscript` or
`script` element. -/
def visibleTextList : List Node → GoString
  | [] => []
  | n :: ns => visibleText n ++ visibleTextList ns
end

/-- The test that picks the matches of a selector among the listed elements. -/
def matchesEntry (sel : Selector) (e : Option String × Node) : Bool :=
  match e.2.tag? with
  | some tag => sel.matchesTag e.1 tag
  | none => false


/-! ## The fetch of `NewArticle` and the handler `ApiHandlerProcessLink` -/

/-- How a call ends: it returns a value, or `log.Fatal` ends the whole process
(`log.Fatal` prints the message and calls `os.Exit(1)`). -/
inductive Outcome (α : Type) where
  | returned (value : α)
  | fatal (message : String)
  deriving DecidableEq

/-- The response of `http.Get` as `NewArticle` reads it: the status code, the status
line, and what `goquery.NewDocumentFromReader(res.Body)` makes of the body. -/
structure HttpResponse where
  StatusCode : Nat
  Status : String
  document : Except String Document

/-- A collection of the record store. -/
structure Collection where
  id : String
  name : String
  deriving DecidableEq

/-- A record of the record store: its collection, its id and the fields set on it. -/
structure Record where
  collection : Collection
  Id : String
  data : List (String × GoString)
  deriving DecidableEq

/-- The value of `core.NewRecord(collection)`: a record with no field set yet. -/
def NewRecord (collection : Collection) : Record :=
  { collection := collection, Id := "", data := [] }

/-- The record after `rec.Set(key, value)`. -/
def Record.Set (record : Record) (key : String) (value : GoString) : Record :=
  { record with data := record.data.filter (fun kv => kv.1 != key) ++ [(key, value)] }

/-- The collaborators of the handler: the network behind `http.Get`, and the record
store behind `app.FindCollectionByNameOrId` and `app.Save` (which yields the record
as stored, with the id the store gave it). -/
structure World where
  httpGet : String → Except String HttpResponse
  findCollectionByNameOrId : String → Except String Collection
  save : Record → Except String Record

/-- The calls made to the collaborators, in the order in which they are made. -/
inductive Effect where
  | httpGet (url : String)
  | findCollection (nameOrId : String)
  | save (record : Record)
  deriving DecidableEq

/-- The function `NewArticle` (lines 154-189): the calls it makes and how it ends. -/
def NewArticle (w : World) (url : String) : List Effect × Outcome Article :=
  ([Effect.httpGet url],
    match w.httpGet url with
    | .error err => .fatal err
    | .ok res =>
      if res.StatusCode != 200 then
        .fatal ("status code error: " ++ toString res.StatusCode ++ " " ++ res.Status)
      else
        match res.document with
        | .error err => .fatal err
        | .ok doc => .returned (extractArticle doc))

/-- The function `createNewRecord` (lines 139-147). -/
def createNewRecord (w : World) (colId : String) : List Effect × Except String Record :=
  ([Effect.findCollection colId],
    match w.findCollectionByNameOrId colId with
    | .error err => .error err
    | .ok collection => .ok (NewRecord collection))

/-- A value of a decoded JSON body, as far as the handler tells values apart. -/
inductive JsonValue where
  | null
  | bool (b : Bool)
  | number
  | string (s : String)
  | array
  | object

/-- What the handler reads of the request: the error of `e.BindBody(&data)`, if any,
and the result of `e.RequestInfo()`, an error or the map `info.Body`. -/
structure RequestEvent where
  bindBody : Option String
  requestInfo : Except String (String → Option JsonValue)

/-- What the handler returns to the router: `e.JSON(status, body)`, or the error
built by `e.BadRequestError(message, err)`, an API error of status 400. -/
inductive Reply where
  | json (status : Nat) (body : List (String × String))
  | badRequestError (message : String) (err : Option String)
  deriving DecidableEq

/-- The HTTP status of a reply. -/
def Reply.status : Reply → Nat
  | .json status _ => status
  | .badRequestError _ _ => 400

/-- The `id` member of the JSON body of a reply, if it has one. -/
def Reply.id? : Reply → Option String
  | .json _ body => body.lookup "id"
  | .badRequestError _ _ => none

/-- The handler `ApiHandlerProcessLink` (lines 106-137): the calls it makes to its
collaborators and how it ends. -/
def ApiHandlerProcessLink (w : World) (e : RequestEvent) : List Effect × Outcome Reply :=
  match e.bindBody with
  | some err => ([], .returned (.badRequestError "Failed to read request body" (some err)))
  | none =>
    match e.requestInfo with
    | .error err => ([], .returned (.badRequestError "Failed to read request body" (some err)))
    | .ok body =>
      match body "url" with
      | some (.string url) =>
        match createNewRecord w "articles" with
        | (fx1, .error err) =>
          (fx1, .returned (.badRequestError "Failed to create database record" (some err)))
        | (fx1, .ok record) =>
          match NewArticle w url with
          | (fx2, .fatal message) => (fx1 ++ fx2, .fatal message)
          | (fx2, .returned article) =>
            let record := (record.Set "title" article.title).Set "content" article.content
            match w.save record with
            | .error err =>
              (fx1 ++ fx2 ++ [Effect.save record],
                .returned (.badRequestError "Failed to save to database" (some err)))
            | .ok saved =>
              (fx1 ++ fx2 ++ [Effect.save record],
                .returned (.json 200 [("message", "Ok"), ("id", saved.Id)]))
      | _ => ([], .returned (.badRequestError "Failed to read request body" none))

/-! ## Sample documents, requests and collaborators -/

/-- The tree parsed from `<article><script>evil()</script>visible</article>`. -/
def scriptPage : Document :=
  ⟨[.element "html" [.element "head" [], .element "body" [.element "article"
    [.element "script" [.text (ascii "evil()")], .text (ascii "visible")]]]]⟩

/-- The tree parsed from `<article><div><h1>T</h1></div>x</article>`: the only `h1`
is a grandchild of the article element. -/
def nestedTitlePage : Document :=
  ⟨[.element "html" [.element "head" [], .element "body" [.element "article"
    [.element "div" [.element "h1" [.text (ascii "T")]], .text (ascii "x")]]]]⟩

/-- The tree parsed from `<article>x</article><article><h1>T2</h1></article>`: the
first article element has no `h1`, the second one has. -/
def laterTitlePage : Document :=
  ⟨[.element "html" [.element "head" [], .element "body"
    [.element "article" [.text (ascii "x")],
     .element "article" [.element "h1" [.text (ascii "T2")]]]]]⟩

/-- The tree parsed from a page without any article element. -/
def plainPage : Document :=
  ⟨[.doctype (ascii "html"), .element "html" [.element "head" [],
    .element "body" [.element "h1" [.text (ascii "T")], .element "p" [.text (ascii "x")]]]]⟩

/-- The tree parsed from `<article><h1>T</h1> body  text </article>` in a page with a
title. -/
def samplePage : Document :=
  ⟨[.element "html" [.element "head" [.element "title" [.text (ascii "page")]],
    .element "body" [.element "article"
      [.element "h1" [.text (ascii "T")], .text (ascii " body  text ")]]]]⟩

/-- Collaborators for the samples: one URL is served `samplePage` with status 200,
every other URL is answered with status 404; the collection `articles` exists; the
store accepts every record and gives it the id `r1`. -/
def sampleWorld : World where
  httpGet := fun url =>
    if url == "http://example.org/a" then .ok ⟨200, "200 OK", .ok samplePage⟩
    else .ok ⟨404, "404 Not Found", .ok ⟨[]⟩⟩
  findCollectionByNameOrId := fun name =>
    if name == "articles" then .ok ⟨"c1", "articles"⟩ else .error "no such collection"
  save := fun record => .ok { record with Id := "r1" }

/-- The same collaborators with a store that rejects every record. -/
def failingStoreWorld : World :=
  { sampleWorld with save := fun _ => .error "store is read-only" }

/-- A request whose JSON body is `{"url": url}`. -/
def sampleRequest (url : String) : RequestEvent where
  bindBody := none
  requestInfo := .ok (fun key => if key == "url" then some (.string url) else none)

/-- A request whose JSON body is `{"url": 5}`: it cannot be bound to the `URL` field. -/
def numberRequest : RequestEvent where
  bindBody := some "json: cannot unmarshal number into Go struct field .url of type string"
  requestInfo := .ok (fun key => if key == "url" then some .number else none)

/-- A request whose body is `{}`, without a `url` member. -/
def emptyRequest : RequestEvent where
  bindBody := none
  requestInfo := .ok (fun _ => none)

/-- The tree parsed from `<article><h1>title</h1>body</article>`. -/
def articlePage (title body : GoString) : Document :=
  ⟨[.element "html" [.element "head" [], .element "body" [.element "article"
    [.element "h1" [.text title], .text body]]]]⟩

/-- The tree parsed from
`<article>other</article><article><h1>T</h1>body text</article>`. -/
def secondArticlePage : Document :=
  ⟨[.element "html" [.element "head" [], .element "body"
    [.element "article" [.text (ascii "other")],
     .element "article" [.element "h1" [.text (ascii "T")], .text (ascii "body text")]]]]⟩

/-! ## Lemmas on the text pipeline -/

theorem replaceAllSpace_of_noSpace (f : Bool) (s : GoString)
    (h : ∀ b ∈ s, isReSpace b = false) : replaceAllSpace f s = s := by
  induction s generalizing f with
  | nil => rfl
  | cons b t ih =>
    have hb : isReSpace b = false := h b (List.mem_cons_self _ _)
    simp only [replaceAllSpace, hb, Bool.false_eq_true, if_false]
    rw [ih false (fun c hc => h c (List.mem_cons_of_mem _ hc))]

theorem replaceAllSpace_flag (f : Bool) (s : GoString)
    (h : ∀ b ∈ s.head?, isReSpace b = false) : replaceAllSpace f s = replaceAllSpace false s := by
  cases s with
  | nil => rfl
  | cons b t =>
    have hb : isReSpace b = false := h b (by simp)
    simp [replaceAllSpace, hb]

theorem replaceAllSpace_append (f : Bool) (a s : GoString)
    (h : ∀ b ∈ s.head?, isReSpace b = false) :
    replaceAllSpace f (a ++ s) = replaceAllSpace f a ++ replaceAllSpace false s := by
  induction a generalizing f with
  | nil => simpa [replaceAllSpace] using replaceAllSpace_flag f s h
  | cons b t ih =>
    by_cases hb : isReSpace b = true
    · cases f <;> simp [replaceAllSpace, hb, ih]
    · simp [replaceAllSpace, hb, ih]

theorem replaceAllSpace_spaceRun_true (g x : GoString) (hg : ∀ b ∈ g, isReSpace b = true) :
    replaceAllSpace true (g ++ x) = replaceAllSpace true x := by
  induction g with
  | nil => rfl
  | cons b t ih =>
    have hb : isReSpace b = true := hg b (List.mem_cons_self _ _)
    simp only [List.cons_append, replaceAllSpace, hb, if_true]
    exact ih (fun c hc => hg c (List.mem_cons_of_mem _ hc))

theorem replaceAllSpace_spaceRun_false (g x : GoString) (hne : g ≠ [])
    (hg : ∀ b ∈ g, isReSpace b = true) :
    replaceAllSpace false (g ++ x) = 0x20 :: replaceAllSpace true x := by
  cases g with
  | nil => exact absurd rfl hne
  | cons b t =>
    have hb : isReSpace b = true := hg b (List.mem_cons_self _ _)
    have ht := replaceAllSpace_spaceRun_true t x (fun c hc => hg c (List.mem_cons_of_mem _ hc))
    simp only [List.cons_append, replaceAllSpace, hb, if_true, Bool.false_eq_true, if_false]
    exact congrArg (List.cons 32) ht

theorem replaceAllSpace_otherRun (f : Bool) (g x : GoString) (hne : g ≠ [])
    (hg : ∀ b ∈ g, isReSpace b = false) :
    replaceAllSpace f (g ++ x) = g ++ replaceAllSpace false x := by
  cases g with
  | nil => exact absurd rfl hne
  | cons b t =>
    have hb : isReSpace b = false := hg b (List.mem_cons_self _ _)
    simp only [List.cons_append, replaceAllSpace, hb, Bool.false_eq_true, if_false]
    congr 1
    clear hne hb
    induction t with
    | nil => rfl
    | cons c t ih =>
      have hc : isReSpace c = false := hg c (by simp)
      simp only [List.cons_append, replaceAllSpace, hc, Bool.false_eq_true, if_false]
      congr 1
      exact ih (fun d hd => by
        rcases List.mem_cons.1 hd with rfl | hd
        · exact hg d (by simp)
        · exact hg d (by simp [hd]))

/-- All bytes of a run on which consecutive bytes agree on `isReSpace` agree with the
first one. -/
theorem run_homogeneous (b : Nat) (g : GoString)
    (h : (b :: g).Chain' (fun x y => (isReSpace x == isReSpace y) = true)) :
    ∀ c ∈ b :: g, isReSpace c = isReSpace b := by
  induction g generalizing b with
  | nil => intro c hc; simp at hc; rw [hc]
  | cons d t ih =>
    rw [List.chain'_cons] at h
    intro c hc
    rcases List.mem_cons.1 hc with rfl | hc
    · rfl
    · have h1 : isReSpace b = isReSpace d := by simpa using h.1
      rw [h1]; exact ih d h.2 c hc

theorem run_homogeneous_last (b : Nat) (g : GoString)
    (h : (b :: g).Chain' (fun x y => (isReSpace x == isReSpace y) = true)) :
    isReSpace ((b :: g).getLast (List.cons_ne_nil _ _)) = isReSpace b :=
  run_homogeneous b g h _ (List.getLast_mem _)

/-- The scan replaces every maximal run: for every way of cutting a text into
non-empty runs that are homogeneous for `isReSpace` and alternate, the scan yields
the runs with each white-space run replaced by one space. -/
theorem replaceAllSpace_runs (runs : List GoString) :
    (∀ g ∈ runs, g ≠ []) →
    (∀ g ∈ runs, g.Chain' (fun x y => (isReSpace x == isReSpace y) = true)) →
    runs.Chain' (fun a b => ∃ ha hb,
      (isReSpace (a.getLast ha) == isReSpace (b.head hb)) = false) →
    ∀ f : Bool, (f = true → ∀ g ∈ runs.head?, ∀ b ∈ g.head?, isReSpace b = false) →
    replaceAllSpace f runs.flatten = (runs.map replaceRun).flatten := by
  induction runs with
  | nil => intro _ _ _ f _; simp [replaceAllSpace]
  | cons g rest ih =>
    intro hne hch halt f hf
    have hrest := ih (fun x hx => hne x (List.mem_cons_of_mem _ hx))
      (fun x hx => hch x (List.mem_cons_of_mem _ hx)) (List.Chain'.tail halt)
    cases g with
    | nil => exact absurd rfl (hne [] (List.mem_cons_self _ _))
    | cons b t =>
      have hhom := run_homogeneous b t (hch _ (List.mem_cons_self _ _))
      have hlast := run_homogeneous_last b t (hch _ (List.mem_cons_self _ _))
      simp only [List.flatten_cons, List.map_cons]
      by_cases hb : isReSpace b = true
      · -- a run of white space: the flag is down, the next run starts with another byte
        have hall : ∀ c ∈ b :: t, isReSpace c = true := fun c hc => by rw [hhom c hc, hb]
        have hf' : f = false := by
          cases f with
          | false => rfl
          | true =>
            have := hf rfl (b :: t) (by simp) b (by simp)
            rw [hb] at this; exact absurd this (by simp)
        subst hf'
        rw [replaceAllSpace_spaceRun_false _ _ (List.cons_ne_nil _ _) hall]
        have hrr : replaceRun (b :: t) = [0x20] := by
          unfold replaceRun
          rw [if_pos (List.all_eq_true.2 hall)]
        rw [hrr]
        simp only [List.singleton_append, List.cons.injEq, true_and]
        apply hrest true
        intro _ g' hg' c hc
        cases rest with
        | nil => simp at hg'
        | cons g2 rest2 =>
          simp only [List.head?_cons, Option.mem_def, Option.some.injEq] at hg'
          subst hg'
          rw [List.chain'_cons] at halt
          obtain ⟨ha, hb', hab⟩ := halt.1
          cases g2 with
          | nil => exact absurd rfl hb'
          | cons c' t' =>
            simp only [List.head?_cons, Option.mem_def, Option.some.injEq] at hc
            subst hc
            simp only [List.head_cons] at hab
            rw [hlast, hb] at hab
            simpa using hab
      · have hbf : isReSpace b = false := by simpa using hb
        have hall : ∀ c ∈ b :: t, isReSpace c = false := fun c hc => by rw [hhom c hc, hbf]
        rw [replaceAllSpace_otherRun f _ _ (List.cons_ne_nil _ _) hall]
        have hrr : replaceRun (b :: t) = b :: t := by
          unfold replaceRun
          rw [if_neg]
          rw [List.all_eq_true]
          intro hcon
          have := hcon b (List.mem_cons_self _ _)
          rw [hbf] at this; exact absurd this (by simp)
        rw [hrr]
        congr 1
        exact hrest false (fun h => absurd h (by simp))

theorem replaceAllString_eq_specCollapse (raw : GoString) :
    ReplaceAllString raw = specCollapse raw := by
  unfold ReplaceAllString specCollapse
  have h := replaceAllSpace_runs (raw.splitBy (fun a b => isReSpace a == isReSpace b))
    (fun g hg => List.ne_nil_of_mem_splitBy _ hg)
    (fun g hg => List.chain'_of_mem_splitBy hg)
    (List.chain'_getLast_head_splitBy _ raw) false (fun h => absurd h (by simp))
  rw [List.flatten_splitBy] at h
  exact h

theorem collapsed_replaceAllSpace (f : Bool) (s : GoString) :
    Collapsed (replaceAllSpace f s) ∧
      (f = true → ∀ b ∈ (replaceAllSpace f s).head?, b ≠ 0x20) := by
  induction s generalizing f with
  | nil => simp [replaceAllSpace, Collapsed]
  | cons b t ih =>
    by_cases hb : isReSpace b = true
    · cases f with
      | true =>
        simp only [replaceAllSpace, hb, if_true]
        exact ⟨(ih true).1, fun _ => (ih true).2 rfl⟩
      | false =>
        simp only [replaceAllSpace, hb, if_true, Bool.false_eq_true, if_false]
        obtain ⟨⟨h1, h2⟩, h3⟩ := ih true
        refine ⟨⟨?_, ?_⟩, fun h => absurd h (by simp)⟩
        · intro c hc hcs
          rcases List.mem_cons.1 hc with rfl | hc
          · rfl
          · exact h1 c hc hcs
        · rw [List.chain'_cons']
          exact ⟨fun c hc hcon => h3 rfl c hc hcon.2, h2⟩
    · have hbf : isReSpace b = false := by simpa using hb
      simp only [replaceAllSpace, hbf, Bool.false_eq_true, if_false]
      obtain ⟨⟨h1, h2⟩, _⟩ := ih false
      have hb32 : b ≠ 0x20 := by
        intro h; rw [h] at hbf; exact absurd hbf (by decide)
      refine ⟨⟨?_, ?_⟩, fun _ c hc => ?_⟩
      · intro c hc hcs
        rcases List.mem_cons.1 hc with rfl | hc
        · rw [hbf] at hcs; exact absurd hcs (by simp)
        · exact h1 c hc hcs
      · rw [List.chain'_cons']
        exact ⟨fun c _ hcon => hb32 hcon.1, h2⟩
      · simp only [List.head?_cons, Option.mem_def, Option.some.injEq] at hc
        rw [← hc]; exact hb32

theorem replaceAllSpace_of_collapsed (s : GoString) (f : Bool) (h : Collapsed s)
    (hf : f = true → ∀ b ∈ s.head?, b ≠ 0x20) : replaceAllSpace f s = s := by
  induction s generalizing f with
  | nil => rfl
  | cons b t ih =>
    obtain ⟨h1, h2⟩ := h
    rw [List.chain'_cons'] at h2
    have ht : Collapsed t := ⟨fun c hc => h1 c (List.mem_cons_of_mem _ hc), h2.2⟩
    by_cases hb : isReSpace b = true
    · have hb32 : b = 0x20 := h1 b (List.mem_cons_self _ _) hb
      have hf' : f = false := by
        cases f with
        | false => rfl
        | true => exact absurd hb32 (hf rfl b (by simp))
      subst hf'
      simp only [replaceAllSpace, hb, if_true, Bool.false_eq_true, if_false]
      rw [ih true ht (fun _ c hc hc32 => h2.1 c hc ⟨hb32, hc32⟩), hb32]
    · have hbf : isReSpace b = false := by simpa using hb
      simp only [replaceAllSpace, hbf, Bool.false_eq_true, if_false]
      rw [ih false ht (fun h => absurd h (by simp))]

theorem collapsed_of_sublist (s t : GoString) (h : Collapsed s) (hi : t <:+: s) : Collapsed t :=
  ⟨fun b hb => h.1 b (hi.subset hb), List.Chain'.infix h.2 hi⟩

theorem collapsed_no_reSpace (s : GoString) (h : Collapsed s) :
    ∀ b ∈ s, b ≠ 0x09 ∧ b ≠ 0x0A ∧ b ≠ 0x0C ∧ b ≠ 0x0D := by
  intro b hb
  have h1 := h.1 b hb
  refine ⟨?_, ?_, ?_, ?_⟩ <;> intro hc <;> subst hc <;> exact absurd (h1 (by decide)) (by decide)

theorem collapsed_no_double_space (s : GoString) (h : Collapsed s) : ¬ ([0x20, 0x20] <:+: s) := by
  intro hi
  have h2 : List.Chain' (fun a b => ¬(a = 0x20 ∧ b = 0x20)) [0x20, 0x20] := List.Chain'.infix h.2 hi
  simp at h2

/-! ### Trimming -/

theorem trimRunes_unfold (p2 : Nat → Nat → Bool) (p3 : Nat → Nat → Nat → Bool) (s : GoString) :
    trimRunes p2 p3 s =
      if spaceLen p2 p3 s = 0 then s else trimRunes p2 p3 (s.drop (spaceLen p2 p3 s)) := by
  rcases s with _ | ⟨b0, _ | ⟨b1, _ | ⟨b2, t⟩⟩⟩
  · simp [trimRunes, spaceLen]
  · by_cases h : isAsciiSpace b0 <;> simp [trimRunes, spaceLen, h]
  · by_cases h : isAsciiSpace b0 <;> by_cases h2 : p2 b0 b1 <;> simp [trimRunes, spaceLen, h, h2]
  · by_cases h : isAsciiSpace b0 <;> by_cases h2 : p2 b0 b1 <;> by_cases h3 : p3 b0 b1 b2 <;>
      simp [trimRunes, spaceLen, h, h2, h3]

theorem spaceLen_le (p2 : Nat → Nat → Bool) (p3 : Nat → Nat → Nat → Bool) (s : GoString) :
    spaceLen p2 p3 s ≤ s.length := by
  rcases s with _ | ⟨b0, _ | ⟨b1, _ | ⟨b2, t⟩⟩⟩ <;> simp [spaceLen] <;> (repeat' split) <;> omega

theorem trim_induction (p2 : Nat → Nat → Bool) (p3 : Nat → Nat → Nat → Bool)
    {P : GoString → Prop}
    (h0 : ∀ s, spaceLen p2 p3 s = 0 → P s)
    (hstep : ∀ s, spaceLen p2 p3 s ≠ 0 → P (s.drop (spaceLen p2 p3 s)) → P s) :
    ∀ s, P s := by
  have key : ∀ n (s : GoString), s.length = n → P s := by
    intro n
    induction n using Nat.strong_induction_on with
    | _ n ih =>
      intro s hs
      by_cases h : spaceLen p2 p3 s = 0
      · exact h0 s h
      · have hle := spaceLen_le p2 p3 s
        exact hstep s h (ih _ (by simp; omega) _ rfl)
  exact fun s => key _ s rfl

theorem trimRunes_isSuffix (p2 : Nat → Nat → Bool) (p3 : Nat → Nat → Nat → Bool)
    (s : GoString) : trimRunes p2 p3 s <:+ s := by
  induction s using trim_induction p2 p3 with
  | h0 s h => rw [trimRunes_unfold, if_pos h]
  | hstep s h ih =>
    rw [trimRunes_unfold, if_neg h]
    exact ih.trans (List.drop_suffix _ _)

theorem spaceLen_trimRunes (p2 : Nat → Nat → Bool) (p3 : Nat → Nat → Nat → Bool)
    (s : GoString) : spaceLen p2 p3 (trimRunes p2 p3 s) = 0 := by
  induction s using trim_induction p2 p3 with
  | h0 s h => rw [trimRunes_unfold, if_pos h]; exact h
  | hstep s h ih => rw [trimRunes_unfold, if_neg h]; exact ih

theorem trimRunes_eq_self (p2 : Nat → Nat → Bool) (p3 : Nat → Nat → Nat → Bool)
    (s : GoString) (h : spaceLen p2 p3 s = 0) : trimRunes p2 p3 s = s := by
  rw [trimRunes_unfold, if_pos h]

theorem spaceLen_of_isPrefix (p2 : Nat → Nat → Bool) (p3 : Nat → Nat → Nat → Bool)
    (l s : GoString) (hp : l <+: s) (h : spaceLen p2 p3 s = 0) : spaceLen p2 p3 l = 0 := by
  obtain ⟨r, rfl⟩ := hp
  rcases l with _ | ⟨b0, _ | ⟨b1, _ | ⟨b2, t⟩⟩⟩
  · simp [spaceLen]
  · rcases r with _ | ⟨c0, _ | ⟨c1, r⟩⟩ <;> simp [spaceLen] at h ⊢ <;>
      by_cases h1 : isAsciiSpace b0 <;> simp_all
  · rcases r with _ | ⟨c0, r⟩ <;> simp [spaceLen] at h ⊢ <;>
      by_cases h1 : isAsciiSpace b0 <;> by_cases h2 : p2 b0 b1 <;> simp_all
  · simpa [spaceLen] using h

/-- A head byte that opens no white-space character. -/
theorem spaceLen_of_head (p2 : Nat → Nat → Bool) (p3 : Nat → Nat → Nat → Bool)
    (b : Nat) (t : GoString) (h1 : isAsciiSpace b = false) (h2 : ∀ c, p2 b c = false)
    (h3 : ∀ c d, p3 b c d = false) : spaceLen p2 p3 (b :: t) = 0 := by
  rcases t with _ | ⟨b1, _ | ⟨b2, t⟩⟩ <;> simp [spaceLen, h1, h2, h3]

theorem trimLeftSpace_isSuffix (s : GoString) : TrimLeftSpace s <:+ s :=
  trimRunes_isSuffix _ _ s

theorem trimRightSpace_isPrefix (s : GoString) : TrimRightSpace s <+: s := by
  unfold TrimRightSpace
  have h := trimRunes_isSuffix isSpace2Rev isSpace3Rev s.reverse
  rw [← List.reverse_prefix] at h
  simpa using h

theorem trimSpace_isInfix (s : GoString) : TrimSpace s <:+: s :=
  (trimRightSpace_isPrefix _).isInfix.trans (trimLeftSpace_isSuffix s).isInfix

theorem startsWithSpace_trimLeftSpace (s : GoString) : startsWithSpace (TrimLeftSpace s) = false := by
  simp [startsWithSpace, TrimLeftSpace, spaceLen_trimRunes]

theorem endsWithSpace_trimRightSpace (s : GoString) : endsWithSpace (TrimRightSpace s) = false := by
  simp [endsWithSpace, TrimRightSpace, spaceLen_trimRunes]

theorem startsWithSpace_of_isPrefix (l s : GoString) (hp : l <+: s)
    (h : startsWithSpace s = false) : startsWithSpace l = false := by
  simp only [startsWithSpace, bne_eq_false_iff_eq] at h ⊢
  exact spaceLen_of_isPrefix _ _ l s hp h

theorem startsWithSpace_trimSpace (s : GoString) : startsWithSpace (TrimSpace s) = false :=
  startsWithSpace_of_isPrefix _ _ (trimRightSpace_isPrefix _) (startsWithSpace_trimLeftSpace s)

theorem endsWithSpace_trimSpace (s : GoString) : endsWithSpace (TrimSpace s) = false :=
  endsWithSpace_trimRightSpace _

theorem trimLeftSpace_eq_self (s : GoString) (h : startsWithSpace s = false) :
    TrimLeftSpace s = s := by
  simp only [startsWithSpace, bne_eq_false_iff_eq] at h
  exact trimRunes_eq_self _ _ s h

theorem trimRightSpace_eq_self (s : GoString) (h : endsWithSpace s = false) :
    TrimRightSpace s = s := by
  simp only [endsWithSpace, bne_eq_false_iff_eq] at h
  simp [TrimRightSpace, trimRunes_eq_self _ _ _ h]

theorem trimSpace_eq_self (s : GoString) (h1 : startsWithSpace s = false)
    (h2 : endsWithSpace s = false) : TrimSpace s = s := by
  unfold TrimSpace
  rw [trimLeftSpace_eq_self s h1, trimRightSpace_eq_self s h2]

theorem collapsed_normalizeText (raw : GoString) : Collapsed (normalizeText raw) :=
  collapsed_of_sublist _ _ (collapsed_replaceAllSpace false raw).1 (trimSpace_isInfix _)

theorem normalizeText_idem (raw : GoString) :
    normalizeText (normalizeText raw) = normalizeText raw := by
  have hc := collapsed_normalizeText raw
  show TrimSpace (ReplaceAllString (normalizeText raw)) = normalizeText raw
  unfold ReplaceAllString
  rw [replaceAllSpace_of_collapsed _ false hc (fun h => absurd h (by simp))]
  exact trimSpace_eq_self _ (startsWithSpace_trimSpace _) (endsWithSpace_trimSpace _)

theorem truncate_isPrefix (s : GoString) : truncate s <+: s := by
  unfold truncate
  split
  · exact List.take_prefix _ _
  · exact List.prefix_refl _

theorem length_truncate_le (s : GoString) : (truncate s).length ≤ maxLen := by
  unfold truncate
  split
  · simp
  · omega

theorem truncate_of_le (s : GoString) (h : s.length ≤ maxLen) : truncate s = s := by
  unfold truncate
  rw [if_neg (by omega)]

/-! ### Concrete texts used below -/

theorem encodeRune_E4 : encodeRune 0xE4 = [0xC3, 0xA4] := by decide

theorem utf8_replicate_succ (n r : Nat) :
    utf8 (List.replicate (n + 1) r) = encodeRune r ++ utf8 (List.replicate n r) := by
  simp [utf8, List.replicate_succ]

theorem utf8_E4_succ (n : Nat) :
    utf8 (List.replicate (n + 1) 0xE4) = 0xC3 :: 0xA4 :: utf8 (List.replicate n 0xE4) := by
  rw [utf8_replicate_succ, encodeRune_E4]; rfl

theorem utf8_append (a b : List Nat) : utf8 (a ++ b) = utf8 a ++ utf8 b := by
  simp [utf8]

theorem utf8_E4_reverse (n : Nat) :
    (utf8 (List.replicate n 0xE4)).reverse =
      (List.replicate n ([0xA4, 0xC3] : GoString)).flatten := by
  induction n with
  | zero => rfl
  | succ n ih =>
    have h1 : utf8 [0xE4] = [0xC3, 0xA4] := by decide
    rw [List.replicate_succ', utf8_append, List.reverse_append, ih, h1, List.replicate_succ]
    rfl

theorem length_utf8_E4 (n : Nat) : (utf8 (List.replicate n 0xE4)).length = 2 * n := by
  induction n with
  | zero => rfl
  | succ n ih => rw [utf8_E4_succ]; simp [ih]; omega

theorem take_utf8_E4 (k m : Nat) :
    (utf8 (List.replicate (k + m) 0xE4)).take (2 * k) = utf8 (List.replicate k 0xE4) := by
  induction k with
  | zero => simp [utf8]
  | succ k ih =>
    rw [show k + 1 + m = (k + m) + 1 by omega, utf8_E4_succ, utf8_E4_succ,
      show 2 * (k + 1) = (2 * k + 1) + 1 by omega, List.take_succ_cons, List.take_succ_cons, ih]

theorem runeCount_utf8_E4 (n : Nat) : runeCount (utf8 (List.replicate n 0xE4)) = n := by
  induction n with
  | zero => rfl
  | succ n ih =>
    rw [utf8_E4_succ]
    unfold runeCount at ih ⊢
    rw [List.filter_cons_of_pos (by decide), List.filter_cons_of_neg (by decide)]
    simp [ih]

theorem mem_utf8_E4 (n : Nat) : ∀ b ∈ utf8 (List.replicate n 0xE4), b = 0xC3 ∨ b = 0xA4 := by
  induction n with
  | zero => intro b hb; simp [utf8] at hb
  | succ n ih =>
    intro b hb
    rw [utf8_E4_succ] at hb
    rcases List.mem_cons.1 hb with h | hb
    · exact Or.inl h
    · rcases List.mem_cons.1 hb with h | hb
      · exact Or.inr h
      · exact ih b hb

theorem normalizeText_utf8_E4 (n : Nat) :
    normalizeText (utf8 (List.replicate n 0xE4)) = utf8 (List.replicate n 0xE4) := by
  have h1 : ReplaceAllString (utf8 (List.replicate n 0xE4)) = utf8 (List.replicate n 0xE4) := by
    apply replaceAllSpace_of_noSpace
    intro b hb
    rcases mem_utf8_E4 n b hb with h | h <;> subst h <;> decide
  show TrimSpace (ReplaceAllString _) = _
  rw [h1]
  apply trimSpace_eq_self
  · cases n with
    | zero => rfl
    | succ n =>
      rw [utf8_E4_succ]
      simp only [startsWithSpace, bne_eq_false_iff_eq]
      exact spaceLen_of_head _ _ _ _ (by decide) (fun c => by simp [isSpace2])
        (fun c d => by simp [isSpace3])
  · cases n with
    | zero => rfl
    | succ n =>
      simp only [endsWithSpace, bne_eq_false_iff_eq]
      rw [utf8_E4_reverse, List.replicate_succ]
      exact spaceLen_of_head _ _ _ _ (by decide) (fun c => by simp [isSpace2Rev, isSpace2])
        (fun c d => by simp [isSpace3Rev, isSpace3])

/-- A byte below `0x80` that is no white space does not end a white-space character. -/
theorem spaceLen_rev_of_ascii (b : Nat) (t : GoString) (h1 : isAsciiSpace b = false)
    (h2 : b < 0x80) : spaceLen isSpace2Rev isSpace3Rev (b :: t) = 0 := by
  apply spaceLen_of_head _ _ _ _ h1
  · intro c
    simp only [isSpace2Rev, isSpace2, Bool.and_eq_false_imp, Bool.or_eq_false_iff, beq_eq_false_iff_ne]
    intro _; constructor <;> omega
  · intro c d
    simp only [isSpace3Rev, isSpace3]
    have e1 : (b == 0x80) = false := by simp; omega
    have e2 : (b == 0xA8) = false := by simp; omega
    have e3 : (b == 0xA9) = false := by simp; omega
    have e4 : (b == 0xAF) = false := by simp; omega
    have e5 : (b == 0x9F) = false := by simp; omega
    have e6 : decide (0x80 ≤ b) = false := by simp; omega
    simp [e1, e2, e3, e4, e5, e6]

/-- A byte below `0x80` that is no white space does not open a white-space character. -/
theorem spaceLen_of_ascii (b : Nat) (t : GoString) (h1 : isAsciiSpace b = false)
    (h2 : b < 0x80) : spaceLen isSpace2 isSpace3 (b :: t) = 0 := by
  apply spaceLen_of_head _ _ _ _ h1
  · intro c
    have e1 : (b == 0xC2) = false := by simp; omega
    simp [isSpace2, e1]
  · intro c d
    have e1 : (b == 0xE1) = false := by simp; omega
    have e2 : (b == 0xE2) = false := by simp; omega
    have e3 : (b == 0xE3) = false := by simp; omega
    simp [isSpace3, e1, e2, e3]

theorem replaceAllString_replicate_append (n : Nat) (b : Nat) (x : GoString)
    (hb : isReSpace b = false) :
    ReplaceAllString (List.replicate (n + 1) b ++ x) =
      List.replicate (n + 1) b ++ ReplaceAllString x := by
  unfold ReplaceAllString
  apply replaceAllSpace_otherRun
  · simp [List.replicate_succ]
  · intro c hc
    rw [List.eq_of_mem_replicate hc]; exact hb

/-! ### White space and well-formed UTF-8 -/

theorem isCont_of_isSpace2 (a b : Nat) (h : isSpace2 a b = true) : isCont b = true := by
  simp only [isSpace2, Bool.and_eq_true, Bool.or_eq_true, beq_iff_eq] at h
  rcases h with ⟨_, h | h⟩ <;> subst h <;> decide

theorem isCont_of_isSpace3 (a b c : Nat) (h : isSpace3 a b c = true) :
    isCont b = true ∧ isCont c = true := by
  simp only [isSpace3, Bool.and_eq_true, Bool.or_eq_true, beq_iff_eq, decide_eq_true_eq] at h
  simp only [isCont, Bool.and_eq_true, decide_eq_true_eq]
  omega

theorem lead_of_isSpace2 (a b : Nat) (h : isSpace2 a b = true) : a = 0xC2 := by
  simp only [isSpace2, Bool.and_eq_true, beq_iff_eq] at h
  exact h.1

theorem lead_of_isSpace3 (a b c : Nat) (h : isSpace3 a b c = true) :
    a = 0xE1 ∨ a = 0xE2 ∨ a = 0xE3 := by
  simp only [isSpace3, Bool.and_eq_true, Bool.or_eq_true, beq_iff_eq, decide_eq_true_eq] at h
  omega

theorem isAsciiSpace_lt (b : Nat) (h : isAsciiSpace b = true) : b < 0x80 := by
  simp only [isAsciiSpace, Bool.or_eq_true, beq_iff_eq] at h
  omega

theorem isReSpace_lt (b : Nat) (h : isReSpace b = true) : b < 0x80 := by
  simp only [isReSpace, Bool.or_eq_true, beq_iff_eq] at h
  omega

theorem isAsciiSpace_of_isReSpace (b : Nat) (h : isReSpace b = true) : isAsciiSpace b = true := by
  simp only [isReSpace, Bool.or_eq_true, beq_iff_eq] at h
  rcases h with (((h | h) | h) | h) | h <;> subst h <;> decide

theorem spaceLen_le_three (p2 : Nat → Nat → Bool) (p3 : Nat → Nat → Nat → Bool) (s : GoString) :
    spaceLen p2 p3 s ≤ 3 := by
  rcases s with _ | ⟨b0, _ | ⟨b1, _ | ⟨b2, t⟩⟩⟩ <;> simp [spaceLen] <;> (repeat' split) <;> omega

/-- A white-space character found at the head of a string is found at the head of
every extension of the string. -/
theorem spaceLen_append_of_ne_zero (p2 : Nat → Nat → Bool) (p3 : Nat → Nat → Nat → Bool)
    (u x : GoString) (h : spaceLen p2 p3 u ≠ 0) :
    spaceLen p2 p3 (u ++ x) = spaceLen p2 p3 u := by
  rcases u with _ | ⟨b0, _ | ⟨b1, _ | ⟨b2, t⟩⟩⟩
  · simp [spaceLen] at h
  · by_cases h1 : isAsciiSpace b0 = true
    · rcases x with _ | ⟨c0, x⟩ <;> simp [spaceLen, h1]
    · simp [spaceLen, h1] at h
  · by_cases h1 : isAsciiSpace b0 = true
    · simp [spaceLen, h1]
    · by_cases h2 : p2 b0 b1 = true
      · simp [spaceLen, h1, h2]
      · simp [spaceLen, h1, h2] at h
  · simp [spaceLen]

/-- Forward reading: a white-space character at the head of `p ++ y` lies within `p`
when `y` does not start with a continuation byte. -/
theorem spaceLen_append_le (p y : GoString) (hp : p ≠ [])
    (hy : ∀ b ∈ y.head?, isCont b = false) :
    spaceLen isSpace2 isSpace3 (p ++ y) ≤ p.length := by
  rcases p with _ | ⟨b0, _ | ⟨b1, _ | ⟨b2, t⟩⟩⟩
  · exact absurd rfl hp
  · rcases y with _ | ⟨y0, y⟩
    · exact spaceLen_le _ _ _
    · have hy0 : isCont y0 = false := hy y0 (by simp)
      have h2 : isSpace2 b0 y0 = false := by
        cases h : isSpace2 b0 y0 with
        | false => rfl
        | true => rw [isCont_of_isSpace2 _ _ h] at hy0; exact absurd hy0 (by simp)
      have h3 : ∀ c, isSpace3 b0 y0 c = false := by
        intro c
        cases h : isSpace3 b0 y0 c with
        | false => rfl
        | true => rw [(isCont_of_isSpace3 _ _ _ h).1] at hy0; exact absurd hy0 (by simp)
      by_cases h1 : isAsciiSpace b0 = true
      · simp [spaceLen, h1]
      · rcases y with _ | ⟨y1, y⟩ <;> simp [spaceLen, h1, h2, h3]
  · rcases y with _ | ⟨y0, y⟩
    · exact spaceLen_le _ _ _
    · have hy0 : isCont y0 = false := hy y0 (by simp)
      have h3 : isSpace3 b0 b1 y0 = false := by
        cases h : isSpace3 b0 b1 y0 with
        | false => rfl
        | true => rw [(isCont_of_isSpace3 _ _ _ h).2] at hy0; exact absurd hy0 (by simp)
      by_cases h1 : isAsciiSpace b0 = true
      · simp [spaceLen, h1]
      · by_cases h2 : isSpace2 b0 b1 = true
        · simp [spaceLen, h1, h2]
        · simp [spaceLen, h1, h2, h3]
  · have := spaceLen_le_three isSpace2 isSpace3 (b0 :: b1 :: b2 :: t ++ y)
    simp only [List.length_cons]
    omega

/-- Backward reading: no white-space character ends `x ++ w` when none ends `w` and
`w` starts with a byte that is no continuation byte (`u` and `x'` are `w` and `x`
reversed). -/
theorem spaceLen_rev_append (u x' : GoString) (hu : u ≠ [])
    (hlast : ∀ b ∈ u.getLast?, isCont b = false)
    (h0 : spaceLen isSpace2Rev isSpace3Rev u = 0) :
    spaceLen isSpace2Rev isSpace3Rev (u ++ x') = 0 := by
  rcases u with _ | ⟨b0, _ | ⟨b1, _ | ⟨b2, t⟩⟩⟩
  · exact absurd rfl hu
  · have hb0 : isCont b0 = false := hlast b0 (by simp)
    have h1 : isAsciiSpace b0 = false := by
      cases h : isAsciiSpace b0 with
      | false => rfl
      | true => simp [spaceLen, h] at h0
    have h2 : ∀ c, isSpace2Rev b0 c = false := by
      intro c
      cases h : isSpace2Rev b0 c with
      | false => rfl
      | true => rw [isCont_of_isSpace2 _ _ h] at hb0; exact absurd hb0 (by simp)
    have h3 : ∀ c d, isSpace3Rev b0 c d = false := by
      intro c d
      cases h : isSpace3Rev b0 c d with
      | false => rfl
      | true => rw [(isCont_of_isSpace3 _ _ _ h).2] at hb0; exact absurd hb0 (by simp)
    exact spaceLen_of_head _ _ _ _ h1 h2 h3
  · have hb1 : isCont b1 = false := hlast b1 (by simp)
    have h1 : isAsciiSpace b0 = false := by
      cases h : isAsciiSpace b0 with
      | false => rfl
      | true => simp [spaceLen, h] at h0
    have h2 : isSpace2Rev b0 b1 = false := by
      cases h : isSpace2Rev b0 b1 with
      | false => rfl
      | true => simp [spaceLen, h1, h] at h0
    have h3 : ∀ d, isSpace3Rev b0 b1 d = false := by
      intro d
      cases h : isSpace3Rev b0 b1 d with
      | false => rfl
      | true => rw [(isCont_of_isSpace3 _ _ _ h).1] at hb1; exact absurd hb1 (by simp)
    rcases x' with _ | ⟨c0, x'⟩ <;> simp [spaceLen, h1, h2, h3]
  · simpa [spaceLen] using h0

/-- The encoding of a white-space character is recognised at the head of a string. -/
theorem spaceLen_encodeRune (r : Nat) (t : GoString) (h : unicodeIsSpace r = true) :
    spaceLen isSpace2 isSpace3 (encodeRune r ++ t) = (encodeRune r).length := by
  have hr : r = 0x09 ∨ r = 0x0A ∨ r = 0x0B ∨ r = 0x0C ∨ r = 0x0D ∨ r = 0x20 ∨ r = 0x85 ∨
      r = 0xA0 ∨ r = 0x1680 ∨ r = 0x2000 ∨ r = 0x2001 ∨ r = 0x2002 ∨ r = 0x2003 ∨ r = 0x2004 ∨
      r = 0x2005 ∨ r = 0x2006 ∨ r = 0x2007 ∨ r = 0x2008 ∨ r = 0x2009 ∨ r = 0x200A ∨
      r = 0x2028 ∨ r = 0x2029 ∨ r = 0x202F ∨ r = 0x205F ∨ r = 0x3000 := by
    unfold unicodeIsSpace at h
    split at h <;>
      simp only [Bool.or_eq_true, Bool.and_eq_true, beq_iff_eq, decide_eq_true_eq] at h <;> omega
  rcases hr with h | h | h | h | h | h | h | h | h | h | h | h | h | h | h | h | h | h | h | h |
    h | h | h | h | h <;> subst h <;> rcases t with _ | ⟨a, _ | ⟨b, t⟩⟩ <;> rfl

/-- What is recognised at the head of a string is the encoding of a white-space
character. -/
theorem encodeRune_of_spaceLen (s : GoString) (h : spaceLen isSpace2 isSpace3 s ≠ 0) :
    ∃ r, unicodeIsSpace r = true ∧ s.take (spaceLen isSpace2 isSpace3 s) = encodeRune r := by
  rcases s with _ | ⟨b0, t⟩
  · simp [spaceLen] at h
  · by_cases h1 : isAsciiSpace b0 = true
    · have hk : spaceLen isSpace2 isSpace3 (b0 :: t) = 1 := by
        rcases t with _ | ⟨b1, _ | ⟨b2, t⟩⟩ <;> simp [spaceLen, h1]
      rw [hk]
      refine ⟨b0, ?_, ?_⟩
      · simp only [isAsciiSpace, Bool.or_eq_true, beq_iff_eq] at h1
        rcases h1 with ((((h1 | h1) | h1) | h1) | h1) | h1 <;> subst h1 <;> decide
      · simp only [isAsciiSpace, Bool.or_eq_true, beq_iff_eq] at h1
        rcases h1 with ((((h1 | h1) | h1) | h1) | h1) | h1 <;> subst h1 <;> rfl
    · rcases t with _ | ⟨b1, t⟩
      · simp [spaceLen, h1] at h
      · by_cases h2 : isSpace2 b0 b1 = true
        · have hk : spaceLen isSpace2 isSpace3 (b0 :: b1 :: t) = 2 := by
            rcases t with _ | ⟨b2, t⟩ <;> simp [spaceLen, h1, h2]
          rw [hk]
          simp only [isSpace2, Bool.and_eq_true, Bool.or_eq_true, beq_iff_eq] at h2
          rcases h2 with ⟨h0, h2 | h2⟩ <;> subst h0 <;> subst h2
          · exact ⟨0x85, by decide, rfl⟩
          · exact ⟨0xA0, by decide, rfl⟩
        · rcases t with _ | ⟨b2, t⟩
          · simp [spaceLen, h1, h2] at h
          · by_cases h3 : isSpace3 b0 b1 b2 = true
            · have hk : spaceLen isSpace2 isSpace3 (b0 :: b1 :: b2 :: t) = 3 := by
                simp [spaceLen, h1, h2, h3]
              rw [hk]
              refine ⟨(b0 - 0xE0) * 4096 + (b1 - 0x80) * 64 + (b2 - 0x80), ?_, ?_⟩
              · simp only [isSpace3, Bool.and_eq_true, Bool.or_eq_true, beq_iff_eq,
                  decide_eq_true_eq] at h3
                have hlt : ¬ (b0 - 0xE0) * 4096 + (b1 - 0x80) * 64 + (b2 - 0x80) ≤ 0xFF := by omega
                unfold unicodeIsSpace
                rw [if_neg hlt]
                simp only [Bool.or_eq_true, Bool.and_eq_true, beq_iff_eq, decide_eq_true_eq]
                omega
              · simp only [isSpace3, Bool.and_eq_true, Bool.or_eq_true, beq_iff_eq,
                  decide_eq_true_eq] at h3
                have e1 : ¬ (b0 - 0xE0) * 4096 + (b1 - 0x80) * 64 + (b2 - 0x80) < 0x80 := by omega
                have e2 : ¬ (b0 - 0xE0) * 4096 + (b1 - 0x80) * 64 + (b2 - 0x80) < 0x800 := by omega
                have e3 : (b0 - 0xE0) * 4096 + (b1 - 0x80) * 64 + (b2 - 0x80) < 0x10000 := by omega
                unfold encodeRune
                rw [if_neg e1, if_neg e2, if_pos e3]
                simp only [List.take_succ_cons, List.take_zero, List.cons.injEq, and_true]
                omega
            · simp [spaceLen, h1, h2, h3] at h

/-! ### Trimming a text that ends with a well-formed text -/

theorem trimRunes_append_forward (y : GoString) (hy : ∀ b ∈ y.head?, isCont b = false) :
    ∀ p : GoString,
      trimRunes isSpace2 isSpace3 (p ++ y) = trimRunes isSpace2 isSpace3 y ∨
      ∃ p', p' ≠ [] ∧ trimRunes isSpace2 isSpace3 (p ++ y) = p' ++ y := by
  have key : ∀ n (p : GoString), p.length = n →
      (trimRunes isSpace2 isSpace3 (p ++ y) = trimRunes isSpace2 isSpace3 y ∨
       ∃ p', p' ≠ [] ∧ trimRunes isSpace2 isSpace3 (p ++ y) = p' ++ y) := by
    intro n
    induction n using Nat.strong_induction_on with
    | _ n ih =>
      intro p hp
      by_cases hnil : p = []
      · subst hnil; exact Or.inl rfl
      · by_cases h0 : spaceLen isSpace2 isSpace3 (p ++ y) = 0
        · exact Or.inr ⟨p, hnil, trimRunes_eq_self _ _ _ h0⟩
        · have hle := spaceLen_append_le p y hnil hy
          rw [trimRunes_unfold, if_neg h0, List.drop_append_of_le_length hle]
          have hpos : 0 < spaceLen isSpace2 isSpace3 (p ++ y) := Nat.pos_of_ne_zero h0
          exact ih _ (by rw [List.length_drop]; omega) _ rfl
  exact fun p => key _ p rfl

theorem trimRunes_rev_append (x' : GoString) :
    ∀ u : GoString, trimRunes isSpace2Rev isSpace3Rev u ≠ [] →
      (∀ b ∈ u.getLast?, isCont b = false) →
      trimRunes isSpace2Rev isSpace3Rev (u ++ x') = trimRunes isSpace2Rev isSpace3Rev u ++ x' := by
  intro u
  induction u using trim_induction isSpace2Rev isSpace3Rev with
  | h0 u h =>
    intro hne hlast
    rw [trimRunes_eq_self _ _ u h] at hne ⊢
    exact trimRunes_eq_self _ _ _ (spaceLen_rev_append u x' hne hlast h)
  | hstep u h ih =>
    intro hne hlast
    have hle := spaceLen_le isSpace2Rev isSpace3Rev u
    have hu : trimRunes isSpace2Rev isSpace3Rev u =
        trimRunes isSpace2Rev isSpace3Rev (u.drop (spaceLen isSpace2Rev isSpace3Rev u)) := by
      rw [trimRunes_unfold, if_neg h]
    rw [hu] at hne ⊢
    have hdrop : u.drop (spaceLen isSpace2Rev isSpace3Rev u) ≠ [] := by
      intro hnil
      rw [hnil] at hne
      exact hne rfl
    have hlen : ¬ u.length ≤ spaceLen isSpace2Rev isSpace3Rev u := by
      intro hc
      exact hdrop (List.drop_eq_nil_of_le hc)
    rw [trimRunes_unfold, if_neg (by rw [spaceLen_append_of_ne_zero _ _ _ _ h]; exact h),
      spaceLen_append_of_ne_zero _ _ _ _ h, List.drop_append_of_le_length hle]
    apply ih hne
    rw [List.getLast?_drop, if_neg hlen]
    exact hlast

/-- Trailing white space of `x ++ u` is the trailing white space of `u`, when `u`
starts with a byte that is no continuation byte and is not white space altogether. -/
theorem trimRightSpace_append (x u : GoString) (hne : TrimRightSpace u ≠ [])
    (hhead : ∀ b ∈ u.head?, isCont b = false) :
    TrimRightSpace (x ++ u) = x ++ TrimRightSpace u := by
  unfold TrimRightSpace at hne ⊢
  rw [List.reverse_append, trimRunes_rev_append x.reverse u.reverse
    (fun h => hne (by rw [h]; rfl)) (by simpa using hhead)]
  simp

/-! ### Well-formed UTF-8 -/

theorem runeLen_le (s : GoString) : runeLen s ≤ s.length := by
  rcases s with _ | ⟨b0, _ | ⟨b1, _ | ⟨b2, _ | ⟨b3, t⟩⟩⟩⟩ <;> simp [runeLen] <;>
    (repeat' split) <;> omega

theorem ge_of_isRune2 (a b : Nat) (h : isRune2 a b = true) : 0xC2 ≤ a ∧ 0x80 ≤ b := by
  simp only [isRune2, isCont, Bool.and_eq_true, decide_eq_true_eq] at h
  omega

theorem ge_of_isRune3 (a b c : Nat) (h : isRune3 a b c = true) :
    0xC2 ≤ a ∧ 0x80 ≤ b ∧ 0x80 ≤ c := by
  simp only [isRune3, isCont, Bool.and_eq_true, Bool.or_eq_true, beq_iff_eq,
    decide_eq_true_eq] at h
  omega

theorem ge_of_isRune4 (a b c d : Nat) (h : isRune4 a b c d = true) :
    0xC2 ≤ a ∧ 0x80 ≤ b ∧ 0x80 ≤ c ∧ 0x80 ≤ d := by
  simp only [isRune4, isCont, Bool.and_eq_true, Bool.or_eq_true, beq_iff_eq,
    decide_eq_true_eq] at h
  omega

theorem isRune2_of_isSpace2 (a b : Nat) (h : isSpace2 a b = true) : isRune2 a b = true := by
  simp only [isSpace2, Bool.and_eq_true, Bool.or_eq_true, beq_iff_eq] at h
  rcases h with ⟨h1, h2 | h2⟩ <;> subst h1 <;> subst h2 <;> decide

theorem isRune3_of_isSpace3 (a b c : Nat) (h : isSpace3 a b c = true) :
    isRune2 a b = false ∧ isRune3 a b c = true := by
  simp only [isSpace3, Bool.and_eq_true, Bool.or_eq_true, beq_iff_eq, decide_eq_true_eq] at h
  constructor
  · cases hr : isRune2 a b with
    | false => rfl
    | true =>
      simp only [isRune2, Bool.and_eq_true, decide_eq_true_eq] at hr
      omega
  · simp only [isRune3, isCont, Bool.and_eq_true, Bool.or_eq_true, beq_iff_eq,
      decide_eq_true_eq]
    omega

/-- The first byte of a well-formed sequence is no continuation byte. -/
theorem head_of_runeLen_ne_zero (b : Nat) (t : GoString) (h : runeLen (b :: t) ≠ 0) :
    isCont b = false := by
  by_cases h1 : b < 0x80
  · simp only [isCont, Bool.and_eq_false_imp, decide_eq_true_eq, decide_eq_false_iff_not]
    intro h2; omega
  · have hb : 0xC2 ≤ b := by
      rcases t with _ | ⟨b1, _ | ⟨b2, _ | ⟨b3, t⟩⟩⟩
      · simp [runeLen, h1] at h
      · by_cases h2 : isRune2 b b1 = true
        · exact (ge_of_isRune2 _ _ h2).1
        · simp [runeLen, h1, h2] at h
      · by_cases h2 : isRune2 b b1 = true
        · exact (ge_of_isRune2 _ _ h2).1
        · by_cases h3 : isRune3 b b1 b2 = true
          · exact (ge_of_isRune3 _ _ _ h3).1
          · simp [runeLen, h1, h2, h3] at h
      · by_cases h2 : isRune2 b b1 = true
        · exact (ge_of_isRune2 _ _ h2).1
        · by_cases h3 : isRune3 b b1 b2 = true
          · exact (ge_of_isRune3 _ _ _ h3).1
          · by_cases h4 : isRune4 b b1 b2 b3 = true
            · exact (ge_of_isRune4 _ _ _ _ h4).1
            · simp [runeLen, h1, h2, h3, h4] at h
    simp only [isCont, Bool.and_eq_false_imp, decide_eq_true_eq, decide_eq_false_iff_not]
    intro _; omega

/-- A white-space character is a well-formed sequence of the same length. -/
theorem runeLen_of_spaceLen (s : GoString) (h : spaceLen isSpace2 isSpace3 s ≠ 0) :
    runeLen s = spaceLen isSpace2 isSpace3 s := by
  rcases s with _ | ⟨b0, t⟩
  · simp [spaceLen] at h
  · by_cases h1 : isAsciiSpace b0 = true
    · have hlt := isAsciiSpace_lt b0 h1
      rcases t with _ | ⟨b1, _ | ⟨b2, t⟩⟩ <;> simp [spaceLen, runeLen, h1, hlt]
    · rcases t with _ | ⟨b1, t⟩
      · simp [spaceLen, h1] at h
      · by_cases h2 : isSpace2 b0 b1 = true
        · have hr := isRune2_of_isSpace2 _ _ h2
          have hge := (ge_of_isRune2 _ _ hr).1
          have hnlt : ¬ b0 < 128 := by omega
          rcases t with _ | ⟨b2, t⟩ <;> simp [spaceLen, runeLen, h1, h2, hr, hnlt]
        · rcases t with _ | ⟨b2, t⟩
          · simp [spaceLen, h1, h2] at h
          · by_cases h3 : isSpace3 b0 b1 b2 = true
            · obtain ⟨hr2, hr3⟩ := isRune3_of_isSpace3 _ _ _ h3
              have hge := (ge_of_isRune3 _ _ _ hr3).1
              have hnlt : ¬ b0 < 128 := by omega
              simp [spaceLen, runeLen, h1, h2, h3, hr2, hr3, hnlt]
            · simp [spaceLen, h1, h2, h3] at h

theorem validUTF8Aux_fuel : ∀ n (s : GoString), s.length ≤ n →
    validUTF8Aux n s = validUTF8Aux s.length s := by
  intro n
  induction n using Nat.strong_induction_on with
  | _ n ih =>
    intro s hs
    rcases s with _ | ⟨b, t⟩
    · cases n <;> rfl
    · cases n with
      | zero => simp at hs
      | succ n =>
        simp only [List.length_cons, validUTF8Aux]
        by_cases hk : runeLen (b :: t) = 0
        · simp [hk]
        · have hle := runeLen_le (b :: t)
          have hlen : ((b :: t).drop (runeLen (b :: t))).length ≤ t.length := by
            rw [List.length_drop]; simp only [List.length_cons]; omega
          simp only [List.length_cons] at hs
          rw [ih n (by omega) _ (by omega)]
          by_cases ht : t.length = n
          · rw [ht, ih n (by omega) _ (by omega)]
          · rw [ih t.length (by omega) _ hlen]

theorem validUTF8_cons (b : Nat) (t : GoString) :
    validUTF8 (b :: t) =
      (runeLen (b :: t) != 0 && validUTF8 ((b :: t).drop (runeLen (b :: t)))) := by
  unfold validUTF8
  simp only [List.length_cons, validUTF8Aux]
  by_cases hk : runeLen (b :: t) = 0
  · simp [hk]
  · have hle := runeLen_le (b :: t)
    rw [validUTF8Aux_fuel t.length _ (by
      rw [List.length_drop]; simp only [List.length_cons]; omega)]

theorem validUTF8_cons_ascii (b : Nat) (t : GoString) (h : b < 0x80) :
    validUTF8 (b :: t) = validUTF8 t := by
  rw [validUTF8_cons]
  have hk : runeLen (b :: t) = 1 := by simp [runeLen, h]
  rw [hk]
  rfl

theorem head_of_validUTF8 (s : GoString) (h : validUTF8 s = true) :
    ∀ b ∈ s.head?, isCont b = false := by
  rcases s with _ | ⟨b, t⟩
  · simp
  · intro c hc
    simp only [List.head?_cons, Option.mem_def, Option.some.injEq] at hc
    subst hc
    rw [validUTF8_cons] at h
    simp only [Bool.and_eq_true, bne_iff_ne, ne_eq] at h
    exact head_of_runeLen_ne_zero _ t h.1

theorem validUTF8_drop_spaceLen (s : GoString) (h : validUTF8 s = true) :
    validUTF8 (s.drop (spaceLen isSpace2 isSpace3 s)) = true := by
  by_cases h0 : spaceLen isSpace2 isSpace3 s = 0
  · rw [h0]; exact h
  · rcases s with _ | ⟨b, t⟩
    · simp [spaceLen] at h0
    · rw [validUTF8_cons] at h
      simp only [Bool.and_eq_true] at h
      rw [← runeLen_of_spaceLen _ h0]
      exact h.2

theorem validUTF8_trimLeftSpace (s : GoString) (h : validUTF8 s = true) :
    validUTF8 (TrimLeftSpace s) = true := by
  unfold TrimLeftSpace
  revert h
  induction s using trim_induction isSpace2 isSpace3 with
  | h0 s h0 => intro h; rw [trimRunes_eq_self _ _ _ h0]; exact h
  | hstep s hk ih =>
    intro h
    rw [trimRunes_unfold, if_neg hk]
    exact ih (validUTF8_drop_spaceLen s h)

theorem validUTF8_dropWhile (s : GoString) (h : validUTF8 s = true) :
    validUTF8 (s.dropWhile isReSpace) = true := by
  induction s with
  | nil => exact h
  | cons b t ih =>
    by_cases hb : isReSpace b = true
    · rw [List.dropWhile_cons_of_pos hb]
      apply ih
      rw [validUTF8_cons_ascii b t (isReSpace_lt b hb)] at h
      exact h
    · rw [List.dropWhile_cons_of_neg hb]
      exact h

/-- The shape of a string that starts with a well-formed sequence. -/
theorem rune_shape (s : GoString) (h : runeLen s ≠ 0) :
    (∃ b0 t, s = b0 :: t ∧ b0 < 0x80) ∨
    (∃ b0 b1 t, s = b0 :: b1 :: t ∧ ¬ b0 < 0x80 ∧ isRune2 b0 b1 = true) ∨
    (∃ b0 b1 b2 t, s = b0 :: b1 :: b2 :: t ∧ ¬ b0 < 0x80 ∧ isRune2 b0 b1 = false ∧
      isRune3 b0 b1 b2 = true) ∨
    (∃ b0 b1 b2 b3 t, s = b0 :: b1 :: b2 :: b3 :: t ∧ ¬ b0 < 0x80 ∧ isRune2 b0 b1 = false ∧
      isRune3 b0 b1 b2 = false ∧ isRune4 b0 b1 b2 b3 = true) := by
  rcases s with _ | ⟨b0, t⟩
  · simp [runeLen] at h
  · by_cases h1 : b0 < 0x80
    · exact Or.inl ⟨b0, t, rfl, h1⟩
    · rcases t with _ | ⟨b1, t⟩
      · simp [runeLen, h1] at h
      · by_cases h2 : isRune2 b0 b1 = true
        · exact Or.inr (Or.inl ⟨b0, b1, t, rfl, h1, h2⟩)
        · have h2' : isRune2 b0 b1 = false := by simpa using h2
          rcases t with _ | ⟨b2, t⟩
          · simp [runeLen, h1, h2] at h
          · by_cases h3 : isRune3 b0 b1 b2 = true
            · exact Or.inr (Or.inr (Or.inl ⟨b0, b1, b2, t, rfl, h1, h2', h3⟩))
            · have h3' : isRune3 b0 b1 b2 = false := by simpa using h3
              rcases t with _ | ⟨b3, t⟩
              · simp [runeLen, h1, h2, h3] at h
              · by_cases h4 : isRune4 b0 b1 b2 b3 = true
                · exact Or.inr (Or.inr (Or.inr ⟨b0, b1, b2, b3, t, rfl, h1, h2', h3', h4⟩))
                · simp [runeLen, h1, h2, h3, h4] at h

theorem not_isReSpace_of_ge (b : Nat) (h : 0x80 ≤ b) : isReSpace b = false := by
  cases hb : isReSpace b with
  | false => rfl
  | true => have := isReSpace_lt b hb; omega

theorem validUTF8_replaceAllSpace : ∀ (s : GoString) (f : Bool), validUTF8 s = true →
    validUTF8 (replaceAllSpace f s) = true := by
  have key : ∀ n (s : GoString), s.length = n → ∀ f : Bool, validUTF8 s = true →
      validUTF8 (replaceAllSpace f s) = true := by
    intro n
    induction n using Nat.strong_induction_on with
    | _ n ih =>
      intro s hn f hv
      rcases s with _ | ⟨b, t⟩
      · exact hv
      · have hv' := hv
        rw [validUTF8_cons] at hv'
        simp only [Bool.and_eq_true, bne_iff_ne, ne_eq] at hv'
        rcases rune_shape _ hv'.1 with ⟨b0, t0, hs, h1⟩ | ⟨b0, b1, t1, hs, h1, h2⟩ |
          ⟨b0, b1, b2, t2, hs, h1, h2, h3⟩ | ⟨b0, b1, b2, b3, t3, hs, h1, h2, h3, h4⟩
        · simp only [List.cons.injEq] at hs
          obtain ⟨rfl, rfl⟩ := hs
          have hvt : validUTF8 t = true := by rw [← validUTF8_cons_ascii b t h1]; exact hv
          simp only [List.length_cons] at hn
          have iht := fun g => ih t.length (by omega) t rfl g hvt
          by_cases hb : isReSpace b = true
          · cases f with
            | true => simp only [replaceAllSpace, hb, if_true]; exact iht true
            | false =>
              simp only [replaceAllSpace, hb, if_true, Bool.false_eq_true, if_false]
              rw [validUTF8_cons_ascii _ _ (by decide)]
              exact iht true
          · simp only [replaceAllSpace, hb, Bool.false_eq_true, if_false]
            rw [validUTF8_cons_ascii _ _ h1]
            exact iht false
        · rw [hs] at hv hn ⊢
          obtain ⟨g0, g1⟩ := ge_of_isRune2 _ _ h2
          have k : runeLen (b0 :: b1 :: t1) = 2 := by simp [runeLen, h1, h2]
          rw [validUTF8_cons, k] at hv
          simp only [Bool.and_eq_true, List.drop_succ_cons, List.drop_zero] at hv
          simp only [List.length_cons] at hn
          have iht := ih t1.length (by omega) t1 rfl false hv.2
          simp only [replaceAllSpace, not_isReSpace_of_ge b0 (by omega),
            not_isReSpace_of_ge b1 g1, Bool.false_eq_true, if_false]
          rw [validUTF8_cons]
          have k' : runeLen (b0 :: b1 :: replaceAllSpace false t1) = 2 := by
            simp [runeLen, h1, h2]
          rw [k']
          simpa using iht
        · rw [hs] at hv hn ⊢
          obtain ⟨g0, g1, g2⟩ := ge_of_isRune3 _ _ _ h3
          have k : runeLen (b0 :: b1 :: b2 :: t2) = 3 := by simp [runeLen, h1, h2, h3]
          rw [validUTF8_cons, k] at hv
          simp only [Bool.and_eq_true, List.drop_succ_cons, List.drop_zero] at hv
          simp only [List.length_cons] at hn
          have iht := ih t2.length (by omega) t2 rfl false hv.2
          simp only [replaceAllSpace, not_isReSpace_of_ge b0 (by omega),
            not_isReSpace_of_ge b1 g1, not_isReSpace_of_ge b2 g2, Bool.false_eq_true, if_false]
          rw [validUTF8_cons]
          have k' : runeLen (b0 :: b1 :: b2 :: replaceAllSpace false t2) = 3 := by
            simp [runeLen, h1, h2, h3]
          rw [k']
          simpa using iht
        · rw [hs] at hv hn ⊢
          obtain ⟨g0, g1, g2, g3⟩ := ge_of_isRune4 _ _ _ _ h4
          have k : runeLen (b0 :: b1 :: b2 :: b3 :: t3) = 4 := by
            simp [runeLen, h1, h2, h3, h4]
          rw [validUTF8_cons, k] at hv
          simp only [Bool.and_eq_true, List.drop_succ_cons, List.drop_zero] at hv
          simp only [List.length_cons] at hn
          have iht := ih t3.length (by omega) t3 rfl false hv.2
          simp only [replaceAllSpace, not_isReSpace_of_ge b0 (by omega),
            not_isReSpace_of_ge b1 g1, not_isReSpace_of_ge b2 g2, not_isReSpace_of_ge b3 g3,
            Bool.false_eq_true, if_false]
          rw [validUTF8_cons]
          have k' : runeLen (b0 :: b1 :: b2 :: b3 :: replaceAllSpace false t3) = 4 := by
            simp [runeLen, h1, h2, h3, h4]
          rw [k']
          simpa using iht
  exact fun s f h => key _ s rfl f h

/-! ### The normalized text of a tail is found in the normalized text of the whole -/

theorem replaceAllSpace_spaceRun (ws : GoString) (h : ∀ b ∈ ws, isReSpace b = true) :
    replaceAllSpace false ws = [] ∨ replaceAllSpace false ws = [0x20] := by
  by_cases hne : ws = []
  · subst hne; exact Or.inl rfl
  · right
    have := replaceAllSpace_spaceRun_false ws [] hne h
    rw [List.append_nil] at this
    rw [this]; rfl

theorem trimLeftSpace_space_cons (y : GoString) : TrimLeftSpace (0x20 :: y) = TrimLeftSpace y := by
  unfold TrimLeftSpace
  rw [trimRunes_unfold]
  have h : spaceLen isSpace2 isSpace3 (0x20 :: y) = 1 := by
    rcases y with _ | ⟨b1, _ | ⟨b2, t⟩⟩ <;> simp [spaceLen, isAsciiSpace]
  rw [h]
  rfl

/-- The normalized text of `body` occurs in the normalized text of `title ++ body`
when `body` is well-formed UTF-8. -/
theorem normalizeText_append_isInfix (title body : GoString) (hv : validUTF8 body = true) :
    normalizeText body <:+: normalizeText (title ++ body) := by
  have hsplit : body.takeWhile isReSpace ++ body.dropWhile isReSpace = body :=
    List.takeWhile_append_dropWhile isReSpace body
  have hws : ∀ b ∈ body.takeWhile isReSpace, isReSpace b = true :=
    fun b hb => List.mem_takeWhile_imp hb
  have hhead : ∀ b ∈ (body.dropWhile isReSpace).head?, isReSpace b = false := by
    intro b hb
    have := List.head?_dropWhile_not isReSpace body
    simp only [Option.mem_def] at hb
    rw [hb] at this
    exact this
  have hY : validUTF8 (replaceAllSpace false (body.dropWhile isReSpace)) = true :=
    validUTF8_replaceAllSpace _ false (validUTF8_dropWhile body hv)
  have hYhead := head_of_validUTF8 _ hY
  have hU : validUTF8 (TrimLeftSpace (replaceAllSpace false (body.dropWhile isReSpace))) = true :=
    validUTF8_trimLeftSpace _ hY
  have hUhead := head_of_validUTF8 _ hU
  have e1 : replaceAllSpace false body =
      replaceAllSpace false (body.takeWhile isReSpace) ++
        replaceAllSpace false (body.dropWhile isReSpace) := by
    have := replaceAllSpace_append false (body.takeWhile isReSpace) _ hhead
    rwa [hsplit] at this
  have e2 : replaceAllSpace false (title ++ body) =
      replaceAllSpace false (title ++ body.takeWhile isReSpace) ++
        replaceAllSpace false (body.dropWhile isReSpace) := by
    have := replaceAllSpace_append false (title ++ body.takeWhile isReSpace) _ hhead
    rwa [List.append_assoc, hsplit] at this
  -- the normalized body
  have h1 : normalizeText body =
      TrimRightSpace (TrimLeftSpace (replaceAllSpace false (body.dropWhile isReSpace))) := by
    show TrimRightSpace (TrimLeftSpace (replaceAllSpace false body)) = _
    rw [e1]
    rcases replaceAllSpace_spaceRun _ hws with h | h
    · rw [h]; rfl
    · rw [h]
      show TrimRightSpace (TrimLeftSpace (0x20 :: _)) = _
      rw [trimLeftSpace_space_cons]
      rfl
  -- the normalized whole
  have h2 : normalizeText (title ++ body) =
      TrimRightSpace (TrimLeftSpace (replaceAllSpace false (title ++ body.takeWhile isReSpace) ++
        replaceAllSpace false (body.dropWhile isReSpace))) := by
    show TrimRightSpace (TrimLeftSpace (replaceAllSpace false (title ++ body))) = _
    rw [e2]
  rw [h1, h2]
  rcases trimRunes_append_forward _ hYhead
    (replaceAllSpace false (title ++ body.takeWhile isReSpace)) with h | ⟨p', _, h⟩
  · unfold TrimLeftSpace
    rw [h]
  · by_cases hnil : TrimRightSpace
        (TrimLeftSpace (replaceAllSpace false (body.dropWhile isReSpace))) = []
    · rw [hnil]
      exact List.nil_infix
    · obtain ⟨s, hs⟩ := trimLeftSpace_isSuffix (replaceAllSpace false (body.dropWhile isReSpace))
      have h3 : TrimLeftSpace (replaceAllSpace false (title ++ body.takeWhile isReSpace) ++
          replaceAllSpace false (body.dropWhile isReSpace)) =
          (p' ++ s) ++ TrimLeftSpace (replaceAllSpace false (body.dropWhile isReSpace)) := by
        unfold TrimLeftSpace at hs ⊢
        rw [h, List.append_assoc, hs]
      rw [h3, trimRightSpace_append _ _ hnil hUhead]
      exact (List.suffix_append _ _).isInfix

/-! ## Lemmas on the document queries -/

mutual
theorem matchAll_eq_filter (sel : Selector) (parent : Option String) :
    ∀ n : Node, matchAll sel parent n =
      ((elementsOf parent n).filter (matchesEntry sel)).map Prod.snd
  | .text _ => by simp [matchAll, elementsOf]
  | .comment _ => by simp [matchAll, elementsOf]
  | .doctype _ => by simp [matchAll, elementsOf]
  | .element tag children => by
    rw [matchAll, elementsOf, matchAllList_eq_filter sel (some tag) children]
    by_cases h : sel.matchesTag parent tag = true
    · simp [List.filter_cons, matchesEntry, Node.tag?, h]
    · simp [List.filter_cons, matchesEntry, Node.tag?, h]
theorem matchAllList_eq_filter (sel : Selector) (parent : Option String) :
    ∀ ns : List Node, matchAllList sel parent ns =
      ((elementsOfList parent ns).filter (matchesEntry sel)).map Prod.snd
  | [] => by simp [matchAllList, elementsOfList]
  | n :: ns => by
    rw [matchAllList, elementsOfList, matchAll_eq_filter sel parent n,
      matchAllList_eq_filter sel parent ns]
    simp
end

mutual
theorem visible_removeIn (sel : Selector) (parent : Option String) :
    ∀ n : Node, isRemoved n = false →
      matchAll sel parent (removeIn n) = (visibleMatches sel parent n).map removeIn
  | .text _, _ => by simp [matchAll, removeIn, visibleMatches]
  | .comment _, _ => by simp [matchAll, removeIn, visibleMatches]
  | .doctype _, _ => by simp [matchAll, removeIn, visibleMatches]
  | .element tag children, h => by
    have h' : removedTags.matchesTag none tag = false := h
    rw [removeIn, matchAll, visibleMatches, visible_removeList sel (some tag) children]
    by_cases hm : sel.matchesTag parent tag = true
    · simp [h', hm, removeIn]
    · simp [h', hm]
theorem visible_removeList (sel : Selector) (parent : Option String) :
    ∀ ns : List Node,
      matchAllList sel parent (removeList ns) = (visibleMatchesList sel parent ns).map removeIn
  | [] => by simp [matchAllList, removeList, visibleMatchesList]
  | n :: ns => by
    rw [removeList, visibleMatchesList]
    by_cases h : isRemoved n = true
    · have hv : visibleMatches sel parent n = [] := by
        cases n with
        | text _ => rfl
        | comment _ => rfl
        | doctype _ => rfl
        | element tag children =>
          have h' : removedTags.matchesTag none tag = true := h
          simp [visibleMatches, h']
      rw [if_pos h, hv, visible_removeList sel parent ns]
      simp
    · have hf : isRemoved n = false := by simpa using h
      rw [if_neg h, matchAllList, visible_removeIn sel parent n hf,
        visible_removeList sel parent ns]
      simp
end

mutual
theorem visibleMatches_not_removed (sel : Selector) (parent : Option String) :
    ∀ n : Node, ∀ m ∈ visibleMatches sel parent n, isRemoved m = false
  | .text _ => by simp [visibleMatches]
  | .comment _ => by simp [visibleMatches]
  | .doctype _ => by simp [visibleMatches]
  | .element tag children => by
    intro m hm
    rw [visibleMatches] at hm
    by_cases h : removedTags.matchesTag none tag = true
    · simp [h] at hm
    · have hf : removedTags.matchesTag none tag = false := by simpa using h
      rw [if_neg h, List.mem_append] at hm
      rcases hm with hm | hm
      · by_cases hs : sel.matchesTag parent tag = true
        · simp only [hs, if_true, List.mem_singleton] at hm
          rw [hm]; exact hf
        · simp [hs] at hm
      · exact visibleMatchesList_not_removed sel (some tag) children m hm
theorem visibleMatchesList_not_removed (sel : Selector) (parent : Option String) :
    ∀ ns : List Node, ∀ m ∈ visibleMatchesList sel parent ns, isRemoved m = false
  | [] => by simp [visibleMatchesList]
  | n :: ns => by
    intro m hm
    rw [visibleMatchesList, List.mem_append] at hm
    rcases hm with hm | hm
    · exact visibleMatches_not_removed sel parent n m hm
    · exact visibleMatchesList_not_removed sel parent ns m hm
end

mutual
theorem nodeText_removeIn :
    ∀ n : Node, isRemoved n = false → nodeText (removeIn n) = visibleText n
  | .text _, _ => by simp [nodeText, removeIn, visibleText]
  | .comment _, _ => by simp [nodeText, removeIn, visibleText]
  | .doctype _, _ => by simp [nodeText, removeIn, visibleText]
  | .element tag children, h => by
    have h' : removedTags.matchesTag none tag = false := h
    rw [removeIn, nodeText, visibleText, nodesText_removeList children]
    simp [h']
theorem nodesText_removeList :
    ∀ ns : List Node, nodesText (removeList ns) = visibleTextList ns
  | [] => by simp [nodesText, removeList, visibleTextList]
  | n :: ns => by
    rw [removeList, visibleTextList]
    by_cases h : isRemoved n = true
    · have hv : visibleText n = [] := by
        cases n with
        | text _ => simp [isRemoved] at h
        | comment _ => rfl
        | doctype _ => rfl
        | element tag children =>
          have h' : removedTags.matchesTag none tag = true := h
          simp [visibleText, h']
      rw [if_pos h, hv, nodesText_removeList ns]
      simp
    · have hf : isRemoved n = false := by simpa using h
      rw [if_neg h, nodesText, nodeText_removeIn n hf, nodesText_removeList ns]
end

theorem nodesText_map_removeIn (ms : List Node) (h : ∀ m ∈ ms, isRemoved m = false) :
    nodesText (ms.map removeIn) = visibleTextList ms := by
  induction ms with
  | nil => simp [nodesText, visibleTextList]
  | cons m ms ih =>
    rw [List.map_cons, nodesText, visibleTextList, nodeText_removeIn m (h m (by simp)),
      ih (fun x hx => h x (by simp [hx]))]

/-- The text of the first match in the document after the removal is the visible text
of the first visible match in the document as parsed. -/
theorem text_first_find_removeMatched (doc : Document) (sel : Selector) :
    nodesText (First (Find (removeMatched doc) sel)) =
      visibleTextList (First (visibleMatchesList sel none doc.children)) := by
  unfold First Find removeMatched
  rw [visible_removeList, ← List.map_take]
  apply nodesText_map_removeIn
  intro m hm
  exact visibleMatchesList_not_removed sel none doc.children m (List.mem_of_mem_take hm)

mutual
theorem visibleMatches_removedTags (parent : Option String) :
    ∀ n : Node, visibleMatches removedTags parent n = []
  | .text _ => by simp [visibleMatches]
  | .comment _ => by simp [visibleMatches]
  | .doctype _ => by simp [visibleMatches]
  | .element tag children => by
    rw [visibleMatches]
    have hp : removedTags.matchesTag parent tag = removedTags.matchesTag none tag := rfl
    by_cases h : removedTags.matchesTag none tag = true
    · simp [h]
    · rw [if_neg h, hp, if_neg h, visibleMatchesList_removedTags (some tag) children]
      rfl
theorem visibleMatchesList_removedTags (parent : Option String) :
    ∀ ns : List Node, visibleMatchesList removedTags parent ns = []
  | [] => by simp [visibleMatchesList]
  | n :: ns => by
    rw [visibleMatchesList, visibleMatches_removedTags parent n,
      visibleMatchesList_removedTags parent ns]
    rfl
end

theorem find_removedTags_removeMatched (doc : Document) :
    Find (removeMatched doc) removedTags = [] := by
  unfold Find removeMatched
  rw [visible_removeList, visibleMatchesList_removedTags]
  rfl

/-! ### Documents without an `article` element -/

mutual
theorem elementsOf_removeIn (parent : Option String) (t : String) :
    ∀ n : Node, (∀ e ∈ elementsOf parent n, e.2.tag? ≠ some t) →
      ∀ e ∈ elementsOf parent (removeIn n), e.2.tag? ≠ some t
  | .text _, _ => by simp [removeIn, elementsOf]
  | .comment _, _ => by simp [removeIn, elementsOf]
  | .doctype _, _ => by simp [removeIn, elementsOf]
  | .element tag children, h => by
    intro e he
    rw [removeIn, elementsOf] at he
    rw [elementsOf] at h
    rcases List.mem_cons.1 he with rfl | he
    · have := h (parent, Node.element tag children) (by simp)
      simpa [Node.tag?] using this
    · exact elementsOfList_removeList (some tag) t children
        (fun x hx => h x (List.mem_cons_of_mem _ hx)) e he
theorem elementsOfList_removeList (parent : Option String) (t : String) :
    ∀ ns : List Node, (∀ e ∈ elementsOfList parent ns, e.2.tag? ≠ some t) →
      ∀ e ∈ elementsOfList parent (removeList ns), e.2.tag? ≠ some t
  | [], _ => by simp [removeList, elementsOfList]
  | n :: ns, h => by
    intro e he
    rw [elementsOfList] at h
    rw [removeList] at he
    by_cases hr : isRemoved n = true
    · rw [if_pos hr] at he
      exact elementsOfList_removeList parent t ns
        (fun x hx => h x (List.mem_append_right _ hx)) e he
    · rw [if_neg hr, elementsOfList, List.mem_append] at he
      rcases he with he | he
      · exact elementsOf_removeIn parent t n (fun x hx => h x (List.mem_append_left _ hx)) e he
      · exact elementsOfList_removeList parent t ns
          (fun x hx => h x (List.mem_append_right _ hx)) e he
end

mutual
theorem matchAll_tags_nil (parent : Option String) (t : String) :
    ∀ n : Node, (∀ e ∈ elementsOf parent n, e.2.tag? ≠ some t) →
      matchAll (.tags [t]) parent n = []
  | .text _, _ => by simp [matchAll]
  | .comment _, _ => by simp [matchAll]
  | .doctype _, _ => by simp [matchAll]
  | .element tag children, h => by
    rw [elementsOf] at h
    have h1 : tag ≠ t := by
      have := h (parent, Node.element tag children) (by simp)
      simpa [Node.tag?] using this
    rw [matchAll, matchAllList_tags_nil (some tag) t children
      (fun x hx => h x (List.mem_cons_of_mem _ hx))]
    simp [Selector.matchesTag, h1]
theorem matchAllList_tags_nil (parent : Option String) (t : String) :
    ∀ ns : List Node, (∀ e ∈ elementsOfList parent ns, e.2.tag? ≠ some t) →
      matchAllList (.tags [t]) parent ns = []
  | [], _ => by simp [matchAllList]
  | n :: ns, h => by
    rw [elementsOfList] at h
    rw [matchAllList, matchAll_tags_nil parent t n (fun x hx => h x (List.mem_append_left _ hx)),
      matchAllList_tags_nil parent t ns (fun x hx => h x (List.mem_append_right _ hx))]
    rfl
end

mutual
theorem matchAll_child_nil (parent : Option String) (p c : String) (hp : parent ≠ some p) :
    ∀ n : Node, (∀ e ∈ elementsOf parent n, e.2.tag? ≠ some p) →
      matchAll (.child p c) parent n = []
  | .text _, _ => by simp [matchAll]
  | .comment _, _ => by simp [matchAll]
  | .doctype _, _ => by simp [matchAll]
  | .element tag children, h => by
    rw [elementsOf] at h
    have h1 : tag ≠ p := by
      have := h (parent, Node.element tag children) (by simp)
      simpa [Node.tag?] using this
    rw [matchAll, matchAllList_child_nil (some tag) p c (by simpa using h1) children
      (fun x hx => h x (List.mem_cons_of_mem _ hx))]
    simp [Selector.matchesTag, hp]
theorem matchAllList_child_nil (parent : Option String) (p c : String) (hp : parent ≠ some p) :
    ∀ ns : List Node, (∀ e ∈ elementsOfList parent ns, e.2.tag? ≠ some p) →
      matchAllList (.child p c) parent ns = []
  | [], _ => by simp [matchAllList]
  | n :: ns, h => by
    rw [elementsOfList] at h
    rw [matchAllList,
      matchAll_child_nil parent p c hp n (fun x hx => h x (List.mem_append_left _ hx)),
      matchAllList_child_nil parent p c hp ns (fun x hx => h x (List.mem_append_right _ hx))]
    rfl
end

theorem not_hasTag (doc : Document) (t : String) (h : doc.hasTag t = false) :
    ∀ e ∈ elementsOfList none doc.children, e.2.tag? ≠ some t := by
  intro e he hc
  unfold Document.hasTag Document.elements at h
  rw [List.any_eq_false] at h
  have := h e he
  simp [hc] at this

theorem extractArticle_of_no_article (doc : Document) (h : doc.hasTag "article" = false) :
    extractArticle doc = { title := [], content := [] } := by
  have h1 := elementsOfList_removeList none "article" doc.children (not_hasTag doc _ h)
  have h2 : Find (removeMatched doc) (.child "article" "h1") = [] :=
    matchAllList_child_nil none "article" "h1" (by simp) _ h1
  have h3 : Find (removeMatched doc) (.tags ["article"]) = [] :=
    matchAllList_tags_nil none "article" _ h1
  unfold extractArticle
  simp only [h2, h3]
  decide

/-! ### The first article element and the first `article>h1` -/

mutual
theorem matchAll_child_of_tags (parent : Option String) (hp : parent ≠ some "article") :
    ∀ n : Node,
      (matchAll (.tags ["article"]) parent n = [] →
        matchAll (.child "article" "h1") parent n = []) ∧
      (∀ a rest, matchAll (.tags ["article"]) parent n = a :: rest →
        ∃ rest', matchAll (.child "article" "h1") parent n =
          matchAllList (.child "article" "h1") (some "article") a.children ++ rest')
  | .text _ => by simp [matchAll]
  | .comment _ => by simp [matchAll]
  | .doctype _ => by simp [matchAll]
  | .element tag children => by
    have hc : (Selector.child "article" "h1").matchesTag parent tag = false := by
      simp [Selector.matchesTag, hp]
    by_cases ht : tag = "article"
    · subst ht
      have hm : (Selector.tags ["article"]).matchesTag parent "article" = true := by
        simp [Selector.matchesTag]
      constructor
      · intro h
        rw [matchAll, hm] at h
        simp at h
      · intro a rest h
        rw [matchAll, hm] at h
        simp only [if_true, List.singleton_append, List.cons.injEq] at h
        refine ⟨[], ?_⟩
        rw [matchAll, hc, ← h.1]
        simp [Node.children]
    · have hm : (Selector.tags ["article"]).matchesTag parent tag = false := by
        simp [Selector.matchesTag, ht]
      have hp' : some tag ≠ some "article" := by simpa using ht
      have ih := matchAllList_child_of_tags (some tag) hp' children
      constructor
      · intro h
        rw [matchAll, hm] at h
        rw [matchAll, hc]
        simpa using ih.1 (by simpa using h)
      · intro a rest h
        rw [matchAll, hm] at h
        obtain ⟨rest', hr⟩ := ih.2 a rest (by simpa using h)
        refine ⟨rest', ?_⟩
        rw [matchAll, hc]
        simpa using hr
theorem matchAllList_child_of_tags (parent : Option String) (hp : parent ≠ some "article") :
    ∀ ns : List Node,
      (matchAllList (.tags ["article"]) parent ns = [] →
        matchAllList (.child "article" "h1") parent ns = []) ∧
      (∀ a rest, matchAllList (.tags ["article"]) parent ns = a :: rest →
        ∃ rest', matchAllList (.child "article" "h1") parent ns =
          matchAllList (.child "article" "h1") (some "article") a.children ++ rest')
  | [] => by simp [matchAllList]
  | n :: ns => by
    have ih1 := matchAll_child_of_tags parent hp n
    have ih2 := matchAllList_child_of_tags parent hp ns
    constructor
    · intro h
      rw [matchAllList, List.append_eq_nil] at h
      rw [matchAllList, ih1.1 h.1, ih2.1 h.2]
      rfl
    · intro a rest h
      rw [matchAllList] at h
      cases hn : matchAll (.tags ["article"]) parent n with
      | nil =>
        rw [hn] at h
        obtain ⟨rest', hr⟩ := ih2.2 a rest (by simpa using h)
        refine ⟨rest', ?_⟩
        rw [matchAllList, ih1.1 hn, hr]
        rfl
      | cons a' r' =>
        rw [hn] at h
        simp only [List.cons_append, List.cons.injEq] at h
        obtain ⟨rest', hr⟩ := ih1.2 a' r' hn
        refine ⟨rest' ++ matchAllList (.child "article" "h1") parent ns, ?_⟩
        rw [matchAllList, hr, ← h.1, List.append_assoc]
end

theorem eq_cons_of_first (l : List Node) (a : Node) (h : First l = [a]) :
    ∃ rest, l = a :: rest := by
  cases l with
  | nil => simp [First] at h
  | cons b t =>
    simp only [First, List.take_succ_cons, List.take_zero, List.cons.injEq, and_true] at h
    exact ⟨t, by rw [h]⟩

/-- The article computed from a document whose first article element, after the
removal of line 171, is `<article><h1>title</h1>body</article>`. -/
theorem extractArticle_of_first (doc : Document) (title body : GoString)
    (hfirst : First (Find (removeMatched doc) (.tags ["article"])) =
      [.element "article" [.element "h1" [.text title], .text body]]) :
    extractArticle doc = { title := title, content := cleanContent (title ++ body) } := by
  obtain ⟨rest, hr⟩ := eq_cons_of_first _ _ hfirst
  obtain ⟨rest', hc⟩ := (matchAllList_child_of_tags none (by simp) (removeMatched doc).children).2
    _ rest hr
  have h1 : Find (removeMatched doc) (.child "article" "h1") =
      Node.element "h1" [.text title] :: rest' := by
    unfold Find
    rw [hc]
    simp [Node.children, matchAllList, matchAll, Selector.matchesTag]
  unfold extractArticle
  simp only [h1, hfirst]
  simp [First, nodesText, nodeText, cleanContent, normalizeText]

theorem normalizeText_of_plain (s : GoString)
    (h : ∀ b ∈ s, isAsciiSpace b = false ∧ b < 0x80) : normalizeText s = s := by
  have h1 : ReplaceAllString s = s := by
    apply replaceAllSpace_of_noSpace
    intro b hb
    cases hr : isReSpace b with
    | false => rfl
    | true =>
      have := isAsciiSpace_of_isReSpace b hr
      rw [(h b hb).1] at this
      exact absurd this (by simp)
  show TrimSpace (ReplaceAllString s) = s
  rw [h1]
  apply trimSpace_eq_self
  · simp only [startsWithSpace, bne_eq_false_iff_eq]
    cases s with
    | nil => rfl
    | cons b t => exact spaceLen_of_ascii b t (h b (by simp)).1 (h b (by simp)).2
  · simp only [endsWithSpace, bne_eq_false_iff_eq]
    cases hrev : s.reverse with
    | nil => rfl
    | cons b t =>
      have hb : b ∈ s := by
        rw [← List.mem_reverse, hrev]; simp
      exact spaceLen_rev_of_ascii b t (h b hb).1 (h b hb).2

theorem first_articlePage (title body : GoString) :
    First (Find (removeMatched (articlePage title body)) (.tags ["article"])) =
      [.element "article" [.element "h1" [.text title], .text body]] := rfl

/-! ## Lemmas on the handler -/

/-- The record the handler hands to `Save`. -/
theorem record_of_article (collection : Collection) (article : Article) :
    ((NewRecord collection).Set "title" article.title).Set "content" article.content =
      ⟨collection, "", [("title", article.title), ("content", article.content)]⟩ := by
  simp [NewRecord, Record.Set]

/-- The handler on a request that passes validation, step by step. -/
theorem handler_of_valid (w : World) (e : RequestEvent) (body : String → Option JsonValue)
    (url : String) (hbind : e.bindBody = none) (hinfo : e.requestInfo = .ok body)
    (hurl : body "url" = some (.string url)) :
    ApiHandlerProcessLink w e =
      match w.findCollectionByNameOrId "articles" with
      | .error err =>
        ([Effect.findCollection "articles"],
          .returned (.badRequestError "Failed to create database record" (some err)))
      | .ok collection =>
        match w.httpGet url with
        | .error err => ([Effect.findCollection "articles", Effect.httpGet url], .fatal err)
        | .ok res =>
          if res.StatusCode != 200 then
            ([Effect.findCollection "articles", Effect.httpGet url],
              .fatal ("status code error: " ++ toString res.StatusCode ++ " " ++ res.Status))
          else
            match res.document with
            | .error err => ([Effect.findCollection "articles", Effect.httpGet url], .fatal err)
            | .ok doc =>
              match w.save ⟨collection, "", [("title", (extractArticle doc).title),
                  ("content", (extractArticle doc).content)]⟩ with
              | .error err =>
                ([Effect.findCollection "articles", Effect.httpGet url,
                  Effect.save ⟨collection, "", [("title", (extractArticle doc).title),
                    ("content", (extractArticle doc).content)]⟩],
                  .returned (.badRequestError "Failed to save to database" (some err)))
              | .ok saved =>
                ([Effect.findCollection "articles", Effect.httpGet url,
                  Effect.save ⟨collection, "", [("title", (extractArticle doc).title),
                    ("content", (extractArticle doc).content)]⟩],
                  .returned (.json 200 [("message", "Ok"), ("id", saved.Id)])) := by
  unfold ApiHandlerProcessLink
  simp only [hbind, hinfo, hurl, createNewRecord, NewArticle]
  cases hc : w.findCollectionByNameOrId "articles" with
  | error err => rfl
  | ok collection =>
    simp only []
    cases hg : w.httpGet url with
    | error err => rfl
    | ok res =>
      simp only []
      cases hs : (res.StatusCode != 200) with
      | true => simp only [if_true]; rfl
      | false =>
        simp only [Bool.false_eq_true, if_false]
        cases hd : res.document with
        | error err => rfl
        | ok doc =>
          simp only [record_of_article]
          cases hsv : w.save ⟨collection, "", [("title", (extractArticle doc).title),
              ("content", (extractArticle doc).content)]⟩ with
          | error err => rfl
          | ok saved => rfl

/-! ## Claims on the text pipeline -/

/-- C1, as amended: the cut of lines 180-183 counts bytes.  A text longer than 5000
bytes is replaced by exactly its first 5000 bytes, a text of at most 5000 bytes is
left unchanged, and for text made of one-byte (ASCII) characters the number of
characters is the number of bytes, before and after the cut. -/
theorem C1_truncate_bytes (trimmedText : GoString) :
    (maxLen < trimmedText.length →
      truncate trimmedText = trimmedText.take 5000 ∧ (truncate trimmedText).length = 5000) ∧
    (trimmedText.length ≤ maxLen → truncate trimmedText = trimmedText) ∧
    ((∀ b ∈ trimmedText, b < 0x80) →
      runeCount trimmedText = trimmedText.length ∧
      runeCount (truncate trimmedText) = (truncate trimmedText).length) := by
  have hascii : ∀ s : GoString, (∀ b ∈ s, b < 0x80) → runeCount s = s.length := by
    intro s hs
    unfold runeCount
    rw [List.filter_eq_self.2]
    intro b hb
    have := hs b hb
    simp only [isCont, Bool.not_eq_true', Bool.and_eq_false_imp, decide_eq_true_eq,
      decide_eq_false_iff_not]
    intro h; omega
  refine ⟨fun h => ?_, fun h => truncate_of_le _ h, fun h => ⟨hascii _ h, ?_⟩⟩
  · have ht : truncate trimmedText = trimmedText.take 5000 := by
      unfold truncate; rw [if_pos h]; rfl
    refine ⟨ht, ?_⟩
    rw [ht, List.length_take]
    have : maxLen = 5000 := rfl
    omega
  · exact hascii _ (fun b hb => h b ((truncate_isPrefix _).subset hb))

/-- Witness of C1: 6000 letters `a` are cut to the first 5000 of them, and the text
`abc` is left as it is. -/
theorem C1_truncate_bytes_witness :
    (truncate (List.replicate 6000 97) = (List.replicate 6000 97).take 5000 ∧
      (truncate (List.replicate 6000 97)).length = 5000) ∧
    truncate (ascii "abc") = ascii "abc" ∧
    runeCount (truncate (ascii "abc")) = (truncate (ascii "abc")).length :=
  ⟨(C1_truncate_bytes (List.replicate 6000 97)).1 (by rw [List.length_replicate]; decide),
   (C1_truncate_bytes (ascii "abc")).2.1 (by decide),
   ((C1_truncate_bytes (ascii "abc")).2.2 (by decide)).2⟩

/-- C1 as stated fails: the text of 6000 letters `ä` (U+00E4, two bytes each) is
already normalized and holds 6000 characters without white space, yet the content cut
from it is the text of 2500 letters `ä`: 2500 characters, not the first 5000. -/
theorem C1_counterexample :
    normalizeText (utf8 (List.replicate 6000 0xE4)) = utf8 (List.replicate 6000 0xE4) ∧
    runeCount (utf8 (List.replicate 6000 0xE4)) = 6000 ∧
    cleanContent (utf8 (List.replicate 6000 0xE4)) = utf8 (List.replicate 2500 0xE4) ∧
    runeCount (cleanContent (utf8 (List.replicate 6000 0xE4))) = 2500 ∧
    cleanContent (utf8 (List.replicate 6000 0xE4)) ≠
      utf8 ((List.replicate 6000 0xE4).take 5000) := by
  have hc : cleanContent (utf8 (List.replicate 6000 0xE4)) = utf8 (List.replicate 2500 0xE4) := by
    unfold cleanContent
    rw [normalizeText_utf8_E4]
    unfold truncate
    rw [if_pos (by rw [length_utf8_E4]; decide)]
    exact take_utf8_E4 2500 3500
  refine ⟨normalizeText_utf8_E4 _, runeCount_utf8_E4 _, hc, ?_, ?_⟩
  · rw [hc]; exact runeCount_utf8_E4 _
  · rw [hc]
    intro h
    have h2 := congrArg List.length h
    rw [List.take_replicate, length_utf8_E4, length_utf8_E4] at h2
    omega

/-- C2: the text after lines 177-179 is the raw text with every maximal run of
white-space bytes (the class `\s`: space, tab, line feed, carriage return, form feed)
replaced by one space and with leading and trailing white space removed; it holds no
tab, line feed, carriage return or form feed, no two adjacent spaces, and neither
starts nor ends with a white-space character; the raw text `a \n\n b \t c` becomes
`a b c`. -/
theorem C2_normalize_whitespace (rawContent : GoString) :
    normalizeText rawContent = specNormalize rawContent ∧
    (∀ b ∈ normalizeText rawContent, b ≠ 0x09 ∧ b ≠ 0x0A ∧ b ≠ 0x0C ∧ b ≠ 0x0D) ∧
    ¬ ([0x20, 0x20] <:+: normalizeText rawContent) ∧
    startsWithSpace (normalizeText rawContent) = false ∧
    endsWithSpace (normalizeText rawContent) = false ∧
    normalizeText (ascii "a \n\n b \t c") = ascii "a b c" := by
  refine ⟨?_, collapsed_no_reSpace _ (collapsed_normalizeText _),
    collapsed_no_double_space _ (collapsed_normalizeText _),
    startsWithSpace_trimSpace _, endsWithSpace_trimSpace _, by decide⟩
  show TrimSpace (ReplaceAllString rawContent) = TrimSpace (specCollapse rawContent)
  rw [replaceAllString_eq_specCollapse]

/-- C10, as amended: the content is a fixed point of the white-space collapse, does
not start with white space and is at most 5000 bytes long; applying the pipeline to
it again only removes trailing white space left by the cut, so the pipeline is
idempotent on every raw text whose normalized form is at most 5000 bytes long. -/
theorem C10_clean_normal_form (rawContent : GoString) :
    ReplaceAllString (cleanContent rawContent) = cleanContent rawContent ∧
    ¬ ([0x20, 0x20] <:+: cleanContent rawContent) ∧
    startsWithSpace (cleanContent rawContent) = false ∧
    (cleanContent rawContent).length ≤ 5000 ∧
    cleanContent (cleanContent rawContent) = TrimRightSpace (cleanContent rawContent) ∧
    ((normalizeText rawContent).length ≤ maxLen →
      cleanContent (cleanContent rawContent) = cleanContent rawContent) := by
  have hcol : Collapsed (cleanContent rawContent) :=
    collapsed_of_sublist _ _ (collapsed_normalizeText rawContent) (truncate_isPrefix _).isInfix
  have hre : ReplaceAllString (cleanContent rawContent) = cleanContent rawContent :=
    replaceAllSpace_of_collapsed _ false hcol (fun h => absurd h (by simp))
  have hst : startsWithSpace (cleanContent rawContent) = false :=
    startsWithSpace_of_isPrefix _ _ (truncate_isPrefix _) (startsWithSpace_trimSpace _)
  have hlen : (cleanContent rawContent).length ≤ 5000 := length_truncate_le _
  have hagain : cleanContent (cleanContent rawContent) =
      TrimRightSpace (cleanContent rawContent) := by
    show truncate (TrimSpace (ReplaceAllString (cleanContent rawContent))) = _
    rw [hre]
    unfold TrimSpace
    rw [trimLeftSpace_eq_self _ hst]
    apply truncate_of_le
    exact le_trans (trimRightSpace_isPrefix _).length_le hlen
  refine ⟨hre, collapsed_no_double_space _ hcol, hst, hlen, hagain, fun h => ?_⟩
  have h1 : cleanContent rawContent = normalizeText rawContent := truncate_of_le _ h
  rw [hagain, h1]
  exact trimRightSpace_eq_self _ (endsWithSpace_trimSpace _)

/-- Witness of C10: the raw text ` a  b ` has a short normalized form, and cleaning
its content `a b` again changes nothing. -/
theorem C10_clean_normal_form_witness :
    cleanContent (cleanContent (ascii " a  b ")) = cleanContent (ascii " a  b ") :=
  (C10_clean_normal_form (ascii " a  b ")).2.2.2.2.2 (by decide)

/-- C10 as stated fails: for the raw text of 4999 letters `a`, a space and a letter
`b` (5001 bytes, already normalized) the cut leaves a trailing space, so the content
ends with white space and cleaning it again yields a different text. -/
theorem C10_counterexample :
    cleanContent (List.replicate 4999 97 ++ [32, 98]) = List.replicate 4999 97 ++ [32] ∧
    endsWithSpace (cleanContent (List.replicate 4999 97 ++ [32, 98])) = true ∧
    cleanContent (cleanContent (List.replicate 4999 97 ++ [32, 98])) = List.replicate 4999 97 ∧
    cleanContent (cleanContent (List.replicate 4999 97 ++ [32, 98])) ≠
      cleanContent (List.replicate 4999 97 ++ [32, 98]) := by
  have hn : normalizeText (List.replicate 4999 97 ++ [32, 98]) =
      List.replicate 4999 97 ++ [32, 98] := by
    show TrimSpace (ReplaceAllString _) = _
    rw [replaceAllString_replicate_append 4998 97 _ (by decide)]
    rw [show ReplaceAllString [32, 98] = [32, 98] by decide]
    apply trimSpace_eq_self
    · simp only [startsWithSpace, bne_eq_false_iff_eq]
      rw [List.replicate_succ, List.cons_append]
      exact spaceLen_of_ascii _ _ (by decide) (by decide)
    · simp only [endsWithSpace, bne_eq_false_iff_eq]
      rw [List.reverse_append]
      exact spaceLen_rev_of_ascii _ _ (by decide) (by decide)
  have h1 : cleanContent (List.replicate 4999 97 ++ [32, 98]) =
      List.replicate 4999 97 ++ [32] := by
    unfold cleanContent
    rw [hn]
    unfold truncate
    rw [if_pos (by rw [List.length_append, List.length_replicate]; decide)]
    rw [List.take_append_eq_append_take, List.length_replicate, List.take_replicate]
    rfl
  have hn2 : normalizeText (List.replicate 4999 97 ++ [32]) = List.replicate 4999 97 := by
    show TrimSpace (ReplaceAllString _) = _
    rw [replaceAllString_replicate_append 4998 97 _ (by decide)]
    rw [show ReplaceAllString [32] = [32] by decide]
    unfold TrimSpace
    rw [trimLeftSpace_eq_self]
    · unfold TrimRightSpace
      rw [List.reverse_append, List.reverse_replicate]
      rw [show ([32] : GoString).reverse ++ List.replicate (4998 + 1) 97 =
        32 :: List.replicate (4998 + 1) 97 from rfl]
      rw [trimRunes_unfold, if_neg (by simp [spaceLen, isAsciiSpace])]
      rw [show spaceLen isSpace2Rev isSpace3Rev (32 :: List.replicate (4998 + 1) 97) = 1 by
        simp [spaceLen, isAsciiSpace]]
      rw [List.drop_one, List.tail_cons, trimRunes_eq_self, List.reverse_replicate]
      rw [List.replicate_succ]
      exact spaceLen_rev_of_ascii _ _ (by decide) (by decide)
    · simp only [startsWithSpace, bne_eq_false_iff_eq]
      rw [List.replicate_succ, List.cons_append]
      exact spaceLen_of_ascii _ _ (by decide) (by decide)
  have h2 : cleanContent (List.replicate 4999 97 ++ [32]) = List.replicate 4999 97 := by
    unfold cleanContent
    rw [hn2]
    exact truncate_of_le _ (by rw [List.length_replicate]; decide)
  refine ⟨h1, ?_, ?_, ?_⟩
  · rw [h1]
    simp only [endsWithSpace, List.reverse_append]
    rfl
  · rw [h1, h2]
  · rw [h1, h2]
    intro h
    have := congrArg List.length h
    rw [List.length_append, List.length_replicate] at this
    exact absurd this (by decide)

/-! ## Claims on the extraction -/

/-- C3, as amended: the title is the text of the first element, in document order,
that is an `h1` whose parent is an `article` element (any article element, not only
the first one, and only a direct child), read in the document after the removal of
`style`, `noscript` and `script`; it is empty when there is no such element. -/
theorem C3_title_first_h1_child (doc : Document) :
    (extractArticle doc).title =
      nodesText (First (((removeMatched doc).elements.filter
        (fun e => e.1 == some "article" && e.2.tag? == some "h1")).map Prod.snd)) ∧
    ((∀ e ∈ (removeMatched doc).elements, ¬ (e.1 = some "article" ∧ e.2.tag? = some "h1")) →
      (extractArticle doc).title = []) := by
  have hfun : matchesEntry (.child "article" "h1") =
      (fun e : Option String × Node => e.1 == some "article" && e.2.tag? == some "h1") := by
    funext e
    obtain ⟨p, n⟩ := e
    cases n <;> simp [matchesEntry, Node.tag?, Selector.matchesTag, Bool.and_comm]
  have heq : (extractArticle doc).title =
      nodesText (First (((removeMatched doc).elements.filter
        (fun e => e.1 == some "article" && e.2.tag? == some "h1")).map Prod.snd)) := by
    show nodesText (First (Find (removeMatched doc) (.child "article" "h1"))) = _
    unfold Find Document.elements
    rw [matchAllList_eq_filter, hfun]
  refine ⟨heq, fun h => ?_⟩
  rw [heq, List.filter_eq_nil_iff.2]
  · rfl
  · intro e he
    have := h e he
    simpa using this

/-- Witness of C3: a page without article element has no `h1` below an article, and
its title is empty. -/
theorem C3_title_first_h1_child_witness : (extractArticle plainPage).title = [] :=
  (C3_title_first_h1_child plainPage).2 (by decide)

/-- C3 as stated fails: an `h1` that is a deeper descendant of the first article
element is not used (the title is empty although the first article holds the `h1`
with text `T`), and an `h1` child of a later article element is used (the title is
`T2` although the first article holds no `h1`). -/
theorem C3_counterexample :
    (extractArticle nestedTitlePage).title = [] ∧
    specTitleDescendant nestedTitlePage = ascii "T" ∧
    (extractArticle laterTitlePage).title = ascii "T2" ∧
    specTitleDescendant laterTitlePage = [] := by decide

/-- C4: once the page is fetched with status 200 and parsed, `NewArticle` returns an
article and never ends the process, whatever the document holds; for a document
without article element both the title and the content are empty. -/
theorem C4_best_effort_extraction (w : World) (url : String) (res : HttpResponse)
    (doc : Document) (hget : w.httpGet url = .ok res) (hstatus : res.StatusCode = 200)
    (hdoc : res.document = .ok doc) :
    NewArticle w url = ([Effect.httpGet url], .returned (extractArticle doc)) ∧
    (doc.hasTag "article" = false → extractArticle doc = { title := [], content := [] }) := by
  refine ⟨?_, extractArticle_of_no_article doc⟩
  unfold NewArticle
  rw [hget]
  simp [hstatus, hdoc]

/-- Witness of C4: a world that serves the page without article element. -/
theorem C4_best_effort_extraction_witness :
    NewArticle { sampleWorld with httpGet := fun _ => .ok ⟨200, "200 OK", .ok plainPage⟩ }
        "http://example.org/plain" =
      ([Effect.httpGet "http://example.org/plain"], .returned (extractArticle plainPage)) ∧
    extractArticle plainPage = { title := [], content := [] } :=
  ⟨(C4_best_effort_extraction
      { sampleWorld with httpGet := fun _ => .ok ⟨200, "200 OK", .ok plainPage⟩ }
      "http://example.org/plain" ⟨200, "200 OK", .ok plainPage⟩ plainPage rfl rfl rfl).1,
   (C4_best_effort_extraction
      { sampleWorld with httpGet := fun _ => .ok ⟨200, "200 OK", .ok plainPage⟩ }
      "http://example.org/plain" ⟨200, "200 OK", .ok plainPage⟩ plainPage rfl rfl rfl).2
      (by decide)⟩

/-- C5: after line 171 no `style`, `noscript` or `script` element is left in the
document; the content is the normalized, cut text of the first article element that
lies outside every such element, read without entering any such element, and the
title is read in the same way, so text inside such an element reaches neither; the
page `<article><script>evil()</script>visible</article>` yields the content
`visible`. -/
theorem C5_removed_elements (doc : Document) :
    Find (removeMatched doc) removedTags = [] ∧
    (extractArticle doc).content =
      cleanContent (visibleTextList (First
        (visibleMatchesList (.tags ["article"]) none doc.children))) ∧
    (extractArticle doc).title =
      visibleTextList (First (visibleMatchesList (.child "article" "h1") none doc.children)) ∧
    (extractArticle scriptPage).content = ascii "visible" := by
  refine ⟨find_removedTags_removeMatched doc, ?_, ?_, by decide⟩
  · show truncate (TrimSpace (ReplaceAllString
      (nodesText (First (Find (removeMatched doc) (.tags ["article"])))))) = _
    rw [text_first_find_removeMatched]
    rfl
  · exact text_first_find_removeMatched doc _

/-! ## Claims on the handler -/

/-- C7, the behaviour of the code where the claim asks for an error response: for a
well-formed request whose URL is answered with status 404, the handler looks up the
collection, fetches the page and then ends the whole process through `log.Fatalf`;
it returns no reply. -/
theorem C7_fetch_failure_ends_process :
    ApiHandlerProcessLink sampleWorld (sampleRequest "http://example.org/missing") =
      ([Effect.findCollection "articles", Effect.httpGet "http://example.org/missing"],
        .fatal "status code error: 404 404 Not Found") ∧
    ∀ reply, (ApiHandlerProcessLink sampleWorld (sampleRequest "http://example.org/missing")).2 ≠
      .returned reply := by
  have h : ApiHandlerProcessLink sampleWorld (sampleRequest "http://example.org/missing") =
      ([Effect.findCollection "articles", Effect.httpGet "http://example.org/missing"],
        .fatal "status code error: 404 404 Not Found") := by decide
  refine ⟨h, fun reply hr => ?_⟩
  rw [h] at hr
  exact absurd hr (by simp)

/-- C8: a request whose body cannot be bound or read, or whose `url` member is
missing or is no string, is answered with the error of status 400 and message
`Failed to read request body`, and no call is made to the record store or to the
network; a request whose body is read and whose `url` member is a string, the empty
one included, goes on to the lookup of the collection `articles` and is never answered
with that error. -/
theorem C8_malformed_request (w : World) (e : RequestEvent) :
    ((e.bindBody ≠ none ∨ (∃ err, e.requestInfo = .error err) ∨
        (∃ body, e.requestInfo = .ok body ∧ ∀ url, body "url" ≠ some (.string url))) →
      ∃ err, ApiHandlerProcessLink w e =
          ([], .returned (.badRequestError "Failed to read request body" err)) ∧
        (Reply.badRequestError "Failed to read request body" err).status = 400) ∧
    (∀ body url, e.bindBody = none → e.requestInfo = .ok body →
        body "url" = some (.string url) →
      (ApiHandlerProcessLink w e).1.head? = some (Effect.findCollection "articles") ∧
      ∀ err, (ApiHandlerProcessLink w e).2 ≠
        .returned (.badRequestError "Failed to read request body" err)) := by
  constructor
  · intro h
    unfold ApiHandlerProcessLink
    cases hb : e.bindBody with
    | some err => exact ⟨some err, rfl, rfl⟩
    | none =>
      rcases h with h | ⟨err, h⟩ | ⟨body, h, hurl⟩
      · exact absurd hb h
      · rw [h]; exact ⟨some err, rfl, rfl⟩
      · rw [h]
        refine ⟨none, ?_, rfl⟩
        cases hv : body "url" with
        | none => simp only [hv]
        | some v =>
          cases v with
          | string url => exact absurd hv (hurl url)
          | null => simp only [hv]
          | bool b => simp only [hv]
          | number => simp only [hv]
          | array => simp only [hv]
          | object => simp only [hv]
  · intro body url hb hi hu
    rw [handler_of_valid w e body url hb hi hu]
    cases w.findCollectionByNameOrId "articles" with
    | error err => simp
    | ok collection =>
      cases w.httpGet url with
      | error err => simp
      | ok res =>
        obtain ⟨code, status, document⟩ := res
        by_cases hs : code = 200
        · cases document with
          | error err => simp [hs]
          | ok doc =>
            simp only [hs, bne_self_eq_false, Bool.false_eq_true, if_false]
            split <;> simp
        · simp [hs]

/-- Witness of C8: the body `{"url": 5}` and the body `{}` are answered with the
error, the body `{"url": ""}` goes on to the lookup of the collection. -/
theorem C8_malformed_request_witness :
    (∃ err, ApiHandlerProcessLink sampleWorld numberRequest =
        ([], .returned (.badRequestError "Failed to read request body" err)) ∧
      (Reply.badRequestError "Failed to read request body" err).status = 400) ∧
    (∃ err, ApiHandlerProcessLink sampleWorld emptyRequest =
        ([], .returned (.badRequestError "Failed to read request body" err)) ∧
      (Reply.badRequestError "Failed to read request body" err).status = 400) ∧
    (ApiHandlerProcessLink sampleWorld (sampleRequest "")).1.head? =
      some (Effect.findCollection "articles") :=
  ⟨(C8_malformed_request sampleWorld numberRequest).1 (Or.inl (by decide)),
   (C8_malformed_request sampleWorld emptyRequest).1
     (Or.inr (Or.inr ⟨fun _ => none, rfl, fun _ h => by simp at h⟩)),
   ((C8_malformed_request sampleWorld (sampleRequest "")).2
     (fun key => if key == "url" then some (.string "") else none) "" rfl rfl rfl).1⟩

/-- C9: when the request passes validation and the lookup of the collection
`articles`, the fetch (status 200) and the parse succeed, the handler makes exactly
one call to `Save`, on a new record of that collection whose fields are exactly
`title` and `content`, set to the title and content of the article extracted from
the fetched page; when `Save` succeeds the reply is status 200 with the JSON body of
`message` `Ok` and `id` the id of the saved record, and when `Save` fails the reply
is the error `Failed to save to database`, which carries no id. -/
theorem C9_success_path (w : World) (e : RequestEvent) (body : String → Option JsonValue)
    (url : String) (collection : Collection) (res : HttpResponse) (doc : Document)
    (hbind : e.bindBody = none) (hinfo : e.requestInfo = .ok body)
    (hurl : body "url" = some (.string url))
    (hcol : w.findCollectionByNameOrId "articles" = .ok collection)
    (hget : w.httpGet url = .ok res) (hstatus : res.StatusCode = 200)
    (hdoc : res.document = .ok doc) :
    (∀ saved, w.save ⟨collection, "", [("title", (extractArticle doc).title),
          ("content", (extractArticle doc).content)]⟩ = .ok saved →
      ApiHandlerProcessLink w e =
        ([Effect.findCollection "articles", Effect.httpGet url,
          Effect.save ⟨collection, "", [("title", (extractArticle doc).title),
            ("content", (extractArticle doc).content)]⟩],
         .returned (.json 200 [("message", "Ok"), ("id", saved.Id)]))) ∧
    (∀ err, w.save ⟨collection, "", [("title", (extractArticle doc).title),
          ("content", (extractArticle doc).content)]⟩ = .error err →
      ApiHandlerProcessLink w e =
        ([Effect.findCollection "articles", Effect.httpGet url,
          Effect.save ⟨collection, "", [("title", (extractArticle doc).title),
            ("content", (extractArticle doc).content)]⟩],
         .returned (.badRequestError "Failed to save to database" (some err))) ∧
      (Reply.badRequestError "Failed to save to database" (some err)).id? = none) := by
  have hs : (res.StatusCode != 200) = false := by rw [hstatus]; rfl
  have h := handler_of_valid w e body url hbind hinfo hurl
  simp only [hcol, hget, hs, hdoc, Bool.false_eq_true, if_false] at h
  constructor
  · intro saved hsv
    rw [h, hsv]
  · intro err hsv
    refine ⟨?_, rfl⟩
    rw [h, hsv]

/-- Witness of C9: the sample page is fetched and stored under the id `r1`; with a
store that rejects the record the reply is the error and carries no id. -/
theorem C9_success_path_witness :
    ApiHandlerProcessLink sampleWorld (sampleRequest "http://example.org/a") =
      ([Effect.findCollection "articles", Effect.httpGet "http://example.org/a",
        Effect.save ⟨⟨"c1", "articles"⟩, "", [("title", (extractArticle samplePage).title),
          ("content", (extractArticle samplePage).content)]⟩],
       .returned (.json 200 [("message", "Ok"), ("id", "r1")])) ∧
    ApiHandlerProcessLink failingStoreWorld (sampleRequest "http://example.org/a") =
      ([Effect.findCollection "articles", Effect.httpGet "http://example.org/a",
        Effect.save ⟨⟨"c1", "articles"⟩, "", [("title", (extractArticle samplePage).title),
          ("content", (extractArticle samplePage).content)]⟩],
       .returned (.badRequestError "Failed to save to database" (some "store is read-only"))) :=
  ⟨(C9_success_path sampleWorld (sampleRequest "http://example.org/a")
      (fun key => if key == "url" then some (.string "http://example.org/a") else none)
      "http://example.org/a" ⟨"c1", "articles"⟩ ⟨200, "200 OK", .ok samplePage⟩ samplePage
      rfl rfl rfl rfl rfl rfl rfl).1 _ rfl,
   ((C9_success_path failingStoreWorld (sampleRequest "http://example.org/a")
      (fun key => if key == "url" then some (.string "http://example.org/a") else none)
      "http://example.org/a" ⟨"c1", "articles"⟩ ⟨200, "200 OK", .ok samplePage⟩ samplePage
      rfl rfl rfl rfl rfl rfl rfl).2 _ rfl).1⟩

/-! ## The claim on `<article><h1>T</h1>body text</article>` -/

/-- C6, as amended: when the first article element of the document (after the removal
of `style`, `noscript` and `script`) is `<article><h1>T</h1>body</article>`, the title
is `T` and the content is the normalized, cut text of `T` followed by `body`; when
moreover `body` is well-formed UTF-8 and the normalized text of `T` followed by `body`
is at most 5000 bytes long, the content contains the normalized `body`. -/
theorem C6_first_article (doc : Document) (title body : GoString)
    (hfirst : First (Find (removeMatched doc) (.tags ["article"])) =
      [.element "article" [.element "h1" [.text title], .text body]]) :
    (extractArticle doc).title = title ∧
    (extractArticle doc).content = cleanContent (title ++ body) ∧
    (validUTF8 body = true → (normalizeText (title ++ body)).length ≤ maxLen →
      normalizeText body <:+: (extractArticle doc).content) := by
  have h := extractArticle_of_first doc title body hfirst
  refine ⟨by rw [h], by rw [h], fun hv hlen => ?_⟩
  rw [h]
  show normalizeText body <:+: truncate (normalizeText (title ++ body))
  rw [truncate_of_le _ hlen]
  exact normalizeText_append_isInfix title body hv

/-- Witness of C6: the page `<article><h1>T</h1> body  text </article>`. -/
theorem C6_first_article_witness :
    (extractArticle samplePage).title = ascii "T" ∧
    (extractArticle samplePage).content = cleanContent (ascii "T" ++ ascii " body  text ") ∧
    normalizeText (ascii " body  text ") <:+: (extractArticle samplePage).content :=
  ⟨(C6_first_article samplePage (ascii "T") (ascii " body  text ") rfl).1,
   (C6_first_article samplePage (ascii "T") (ascii " body  text ") rfl).2.1,
   (C6_first_article samplePage (ascii "T") (ascii " body  text ") rfl).2.2
     (by decide) (by decide)⟩

/-- C6 as stated fails, in three ways.  A document that holds
`<article><h1>T</h1>body text</article>` after another article element yields the
content `other`, which does not contain `body text`.  With the title `T` and a body
of 5000 letters `a` the content is `T` followed by 4999 letters `a`, which does not
contain the body.  With a title that ends in the bytes `E2 80` and a body that starts
with the byte `83` (neither is well-formed UTF-8) the three bytes are trimmed as the
white-space character U+2003, and the content `x` does not contain the normalized
body. -/
theorem C6_counterexample :
    ((extractArticle secondArticlePage).content = ascii "other" ∧
      normalizeText (ascii "body text") = ascii "body text" ∧
      ¬ (normalizeText (ascii "body text") <:+: (extractArticle secondArticlePage).content)) ∧
    ((extractArticle (articlePage (ascii "T") (List.replicate 5000 97))).content =
        84 :: List.replicate 4999 97 ∧
      normalizeText (List.replicate 5000 97) = List.replicate 5000 97 ∧
      ¬ (normalizeText (List.replicate 5000 97) <:+:
        (extractArticle (articlePage (ascii "T") (List.replicate 5000 97))).content)) ∧
    ((extractArticle (articlePage [0xE2, 0x80] [0x83, 0x78])).content = [0x78] ∧
      normalizeText [0x83, 0x78] = [0x83, 0x78] ∧
      ¬ (normalizeText [0x83, 0x78] <:+:
        (extractArticle (articlePage [0xE2, 0x80] [0x83, 0x78])).content)) := by
  have hplain : ∀ n, ∀ b ∈ List.replicate n 97, isAsciiSpace b = false ∧ b < 0x80 := by
    intro n b hb
    rw [List.eq_of_mem_replicate hb]
    decide
  have hbody : normalizeText (List.replicate 5000 97) = List.replicate 5000 97 :=
    normalizeText_of_plain _ (hplain 5000)
  have hcontent : (extractArticle (articlePage (ascii "T") (List.replicate 5000 97))).content =
      84 :: List.replicate 4999 97 := by
    rw [extractArticle_of_first _ (ascii "T") (List.replicate 5000 97) (first_articlePage _ _)]
    have hT : ∀ l : GoString, ascii "T" ++ l = 84 :: l := fun _ => rfl
    unfold cleanContent
    rw [hT, normalizeText_of_plain]
    · unfold truncate
      rw [if_pos (by rw [List.length_cons, List.length_replicate]; decide)]
      show List.take (4999 + 1) (84 :: List.replicate 5000 97) = _
      rw [List.take_succ_cons, List.take_replicate]
      rfl
    · intro b hb
      rcases List.mem_cons.1 hb with rfl | hb
      · decide
      · exact hplain 5000 b hb
  refine ⟨by decide, ⟨hcontent, hbody, ?_⟩, by decide⟩
  rw [hcontent, hbody]
  intro hi
  have heq := hi.eq_of_length (by
    rw [List.length_cons, List.length_replicate, List.length_replicate])
  rw [show (5000 : Nat) = 4999 + 1 from rfl, List.replicate_succ] at heq
  simp only [List.cons.injEq] at heq
  exact absurd heq.1 (by decide)

end PocketAlternative
